import Mathlib

/-!
Verification development for the rust_images repository.

This file gives a shallow embedding, in Lean 4, of the bitmap (BMP) codec,
the pixel-grid `Image` type, and the color model of the repository
(src/lib/src/image/format/bitmap.rs, src/lib/src/image.rs,
src/lib/src/color.rs, src/lib/src/color/conversion.rs,
src/lib/src/utility.rs, src/lib/src/constants.rs), and proves or refutes
the specification claims about them.

Modelling conventions:
* Rust machine integers are modelled as `Nat` (unsigned) or `Int` (signed),
  with explicit `% 2^w` reductions at the points where the source can wrap.
* Byte buffers are `List Nat`; the constraint that entries are below 256 is
  carried as a hypothesis where it matters.
* A fallible Rust computation is modelled by `RRes`: `ok` and `err` are the
  two `Result` branches, `panic` marks an execution that panics (slice or
  `Vec` indexing out of range, `todo!()`, `unwrap` of `None`), and
  `diverge` marks an execution that loops forever.
* The source computes some scanline widths with exact `f32` arithmetic
  (`ceil` of quotients of values that, for the bit depths reachable in the
  relevant branches, are exactly representable, the divisors being 1, 2, 4
  or 8); these are modelled by the corresponding exact `Nat` ceiling
  divisions, and theorems that quantify over decode inputs restrict widths
  to a range (|width| ≤ 2^24) on which `f32` arithmetic is exact.
-/

namespace RustImages

/-- Outcome of a Rust computation: a `Result::Ok` value, a `Result::Err`
with its message, a panic, or divergence (an infinite loop). -/
inductive RRes (α : Type) where
  | ok : α → RRes α
  | err : String → RRes α
  | panic : RRes α
  | diverge : RRes α
deriving DecidableEq, Repr

/-- True exactly on the `err` branch of an `RRes`. -/
def RRes.isErr {α : Type} : RRes α → Bool
  | .err _ => true
  | _ => false

/-- True exactly on the `ok` branch of an `RRes`. -/
def RRes.isOk {α : Type} : RRes α → Bool
  | .ok _ => true
  | _ => false

/-! ### Color model (src/lib/src/color.rs) -/

/-- Direct color `ARGB`: four 8-bit unsigned channels.  Channels are
modelled as `Nat`; the byte-range constraint (< 256) is a hypothesis in
the theorems that need it. -/
structure ARGB where
  red : Nat
  green : Nat
  blue : Nat
  alpha : Nat
deriving DecidableEq, Repr

/-- `as_u32` on the tuple `(alpha, red, green, blue)`
(src/lib/src/color.rs:49-62,98-100): little-endian puts `alpha` in the
least significant byte, big-endian in the most significant byte. -/
def ARGB.asU32 (c : ARGB) (littleEndian : Bool) : Nat :=
  if littleEndian then
    c.alpha + c.red * 2 ^ 8 + c.green * 2 ^ 16 + c.blue * 2 ^ 24
  else
    c.alpha * 2 ^ 24 + c.red * 2 ^ 16 + c.green * 2 ^ 8 + c.blue

/-- `ARGB::with_alpha` (src/lib/src/color.rs:112-119). -/
def ARGB.withAlpha (c : ARGB) (alpha : Nat) : ARGB :=
  { c with alpha := alpha }

/-- `AXYZ` (src/lib/src/color.rs): three `f32` components plus alpha. -/
structure AXYZ where
  x : Float
  y : Float
  z : Float
  alpha : Nat

/-- `ALAB` (src/lib/src/color.rs): three `f32` components plus alpha. -/
structure ALAB where
  l : Float
  a : Float
  b : Float
  alpha : Nat

/-- `AHSV` (src/lib/src/color.rs): three `f32` components plus alpha. -/
structure AHSV where
  h : Float
  s : Float
  v : Float
  alpha : Nat

/-- `LABSettings` (src/lib/src/color/conversion.rs:4-6). -/
structure LABSettings where
  refs : Float × Float × Float

/-! ### Color-space conversions with unimplemented bodies
(src/lib/src/color/conversion.rs).

Each of the eight directed pairs below is declared in the source with a
body that is exactly `todo!()`, a macro that unconditionally panics with
a "not yet implemented" message.  The faithful embedding of each such
body is therefore the `panic` outcome, for every input and options value.
The error type of all of these impls is the unit type `()`. -/

/-- `impl ConvertableFrom<AXYZ> for ARGB` (conversion.rs:110-117): `todo!()`. -/
def argbFromAXYZ (_value : AXYZ) (_options : Unit) : RRes ARGB := .panic

/-- `impl ConvertableFrom<AXYZ> for AHSV` (conversion.rs:146-153): `todo!()`. -/
def ahsvFromAXYZ (_value : AXYZ) (_options : Unit) : RRes AHSV := .panic

/-- `impl ConvertableFrom<ALAB> for ARGB` (conversion.rs:155-162): `todo!()`. -/
def argbFromALAB (_value : ALAB) (_options : LABSettings) : RRes ARGB := .panic

/-- `impl ConvertableFrom<ALAB> for AXYZ` (conversion.rs:164-171): `todo!()`. -/
def axyzFromALAB (_value : ALAB) (_options : LABSettings) : RRes AXYZ := .panic

/-- `impl ConvertableFrom<ALAB> for AHSV` (conversion.rs:173-180): `todo!()`. -/
def ahsvFromALAB (_value : ALAB) (_options : LABSettings) : RRes AHSV := .panic

/-- `impl ConvertableFrom<AHSV> for ARGB` (conversion.rs:182-189): `todo!()`. -/
def argbFromAHSV (_value : AHSV) (_options : Unit) : RRes ARGB := .panic

/-- `impl ConvertableFrom<AHSV> for AXYZ` (conversion.rs:191-198): `todo!()`. -/
def axyzFromAHSV (_value : AHSV) (_options : Unit) : RRes AXYZ := .panic

/-- `impl ConvertableFrom<AHSV> for ALAB` (conversion.rs:200-207): `todo!()`. -/
def alabFromAHSV (_value : AHSV) (_options : LABSettings) : RRes ALAB := .panic

/-! ### Pixel grid (src/lib/src/image.rs) -/

/-- The `Image` pixel grid: a flat row-major list of direct colors. -/
structure Image where
  width : Nat
  height : Nat
  pixels : List ARGB
deriving DecidableEq, Repr

/-- `Image::calculate_index` (src/lib/src/image.rs:31-33). -/
def Image.calculateIndex (img : Image) (i j : Nat) : Nat :=
  img.width * j + i

/-- `Image::get` (src/lib/src/image.rs:35-44).  The source compares the
flat index against `self.pixels.capacity()`; `cap` is that capacity, an
ambient property of the backing `Vec` satisfying `cap ≥ pixels.length`
(with equality for vectors allocated by `vec![d; n]` as in `Image::new`).
If the capacity test passes, the source indexes `self.pixels[index]`,
which panics when `index ≥ pixels.length`. -/
def Image.get (img : Image) (cap : Nat) (i j : Nat) : RRes (Option ARGB) :=
  let index := img.calculateIndex i j
  if index > cap then .ok none
  else
    match img.pixels.get? index with
    | some c => .ok (some c)
    | none => .panic

/-! ### Byte-level utilities (src/lib/src/utility.rs) -/

/-- `reduce_bit_slice` (utility.rs:1-33): little-endian accumulation
Σ slice[i]·256^i of a byte slice. -/
def reduceBitSlice (slice : List Nat) : Nat :=
  slice.foldr (fun b acc => b + 256 * acc) 0

/-- The `i32` instance of `reduce_bit_slice`: the same accumulation with
wrapping `i32` shifts, which on a 4-entry byte slice is the little-endian
two's-complement value. -/
def reduceBitSliceI32 (slice : List Nat) : Int :=
  let u := reduceBitSlice slice
  if u < 2 ^ 31 then (u : Int) else (u : Int) - 2 ^ 32

/-- `round_to_next_multiple_of_4` (utility.rs:39-41): `((v + 3) & -4)`,
for the non-negative arguments occurring at every call site. -/
def roundToNextMultipleOf4 (value : Nat) : Nat :=
  4 * ((value + 3) / 4)

/-- `u16::to_le_bytes`. -/
def u16ToLeBytes (n : Nat) : List Nat :=
  [n % 256, n / 2 ^ 8 % 256]

/-- `u32::to_le_bytes`. -/
def u32ToLeBytes (n : Nat) : List Nat :=
  [n % 256, n / 2 ^ 8 % 256, n / 2 ^ 16 % 256, n / 2 ^ 24 % 256]

/-- `i32::to_le_bytes`: bytes of the two's-complement representative. -/
def i32ToLeBytes (z : Int) : List Nat :=
  u32ToLeBytes (z % (2 ^ 32 : Int)).toNat

/-- A `usize` value cast `as i32` (two's complement wrap). -/
def usizeAsI32 (n : Nat) : Int :=
  let m : Nat := n % 2 ^ 32
  if m < 2 ^ 31 then (m : Int) else (m : Int) - 2 ^ 32

/-- `slice.chunks(k)` needs fuel in Lean; `l.length` steps suffice for
`k > 0`, since every step consumes at least one element. -/
def listChunksAux {α : Type} (k : Nat) : Nat → List α → List (List α)
  | _, [] => []
  | 0, _ => []
  | fuel + 1, l => l.take k :: listChunksAux k fuel (l.drop k)

/-- `slice.chunks(k)` (for `k > 0`): the maximal full chunks followed by
a shorter final chunk when `k` does not divide the length. -/
def listChunks {α : Type} (k : Nat) (l : List α) : List (List α) :=
  listChunksAux k l.length l

/-- `slice.chunks_exact(k)`: only the full chunks, the remainder is
dropped.  The source function panics when `k = 0`; callers guard. -/
def listChunksExact {α : Type} (k : Nat) (l : List α) : List (List α) :=
  (listChunks k l).filter (fun c => c.length = k)

/-! ### Bitmap data model (src/lib/src/image/format/bitmap.rs:17-190) -/

/-- `BitmapHeader` (bitmap.rs:30-50): u16 signature, u32 file size,
reserved and data offset. -/
structure BitmapHeader where
  signature : Nat
  file_size : Nat
  reserved : Nat
  data_offset : Nat
deriving DecidableEq, Repr

/-- `BitmapInfoHeader` (bitmap.rs:56-119): u32/u16 unsigned fields and
i32 signed width, height and resolutions. -/
structure BitmapInfoHeader where
  size : Nat
  width : Int
  height : Int
  planes : Nat
  bit_depth : Nat
  compression : Nat
  image_size : Nat
  x_pixels_per_meter : Int
  y_pixels_per_meter : Int
  colors_used : Nat
  important_colors : Nat
deriving DecidableEq, Repr

/-- `BitmapColorTable` (bitmap.rs:128-131). -/
structure BitmapColorTable where
  colors : List ARGB
deriving DecidableEq, Repr

/-- `BitmapPixelData` (bitmap.rs:137-141): direct colors, or color-table
indices (u8 values, modelled as `Nat`). -/
inductive BitmapPixelData where
  | Colors : List ARGB → BitmapPixelData
  | Indices : List Nat → BitmapPixelData
deriving DecidableEq, Repr

/-- `BitmapPixels` (bitmap.rs:152-155). -/
structure BitmapPixels where
  pixels : BitmapPixelData
deriving DecidableEq, Repr

/-- `Bitmap` (bitmap.rs:17-23). -/
structure Bitmap where
  header : BitmapHeader
  info_header : BitmapInfoHeader
  color_table : BitmapColorTable
  pixels : BitmapPixels
deriving DecidableEq, Repr

/-- `BitmapConvertData` (bitmap.rs:161-190). -/
structure BitmapConvertData where
  bit_depth : Nat
  compression : Nat
  x_pixels_per_meter : Int
  y_pixels_per_meter : Int
deriving DecidableEq, Repr

/-! ### Bitmap decode (impl TryFrom<&[u8]> for Bitmap, bitmap.rs:391-596)

The source walks the buffer with a running offset through `get_next_bytes`
(a slice `&buffer[start..start+n]`, which panics when the end exceeds the
buffer length).  The header reads visit the statically determined offsets
0, 2, 6, 10 (file header) and 14, 18, 22, 26, 28, 30, 34, 38, 42, 46, 50
(info header), leaving the cursor at 54. -/

/-- The `n`-byte slice of `b` at absolute offset `off`. -/
def bytesAt (b : List Nat) (off n : Nat) : List Nat :=
  (b.drop off).take n

/-- Read a little-endian u16 at offset `off`. -/
def readU16 (b : List Nat) (off : Nat) : Nat :=
  reduceBitSlice (bytesAt b off 2)

/-- Read a little-endian u32 at offset `off`. -/
def readU32 (b : List Nat) (off : Nat) : Nat :=
  reduceBitSlice (bytesAt b off 4)

/-- Read a little-endian i32 at offset `off`. -/
def readI32 (b : List Nat) (off : Nat) : Int :=
  reduceBitSliceI32 (bytesAt b off 4)

/-- The file header parse (bitmap.rs:413-418). -/
def parseHeader (b : List Nat) : BitmapHeader :=
  { signature := readU16 b 0
    file_size := readU32 b 2
    reserved := readU32 b 6
    data_offset := readU32 b 10 }

/-- The info header parse (bitmap.rs:421-433). -/
def parseInfoHeader (b : List Nat) : BitmapInfoHeader :=
  { size := readU32 b 14
    width := readI32 b 18
    height := readI32 b 22
    planes := readU16 b 26
    bit_depth := readU16 b 28
    compression := readU32 b 30
    image_size := readU32 b 34
    x_pixels_per_meter := readI32 b 38
    y_pixels_per_meter := readI32 b 42
    colors_used := readU32 b 46
    important_colors := readU32 b 50 }

/-- One palette entry from a 4-byte chunk (bitmap.rs:451-456): blue,
green, red, alpha in that byte order, missing bytes defaulting to 0. -/
def paletteColor (chunk : List Nat) : ARGB :=
  { blue := chunk.getD 0 0
    green := chunk.getD 1 0
    red := chunk.getD 2 0
    alpha := chunk.getD 3 0 }

/-- The color-table parse (bitmap.rs:444-461): 4-byte chunks. -/
def parseColorTable (raw : List Nat) : List ARGB :=
  (listChunks 4 raw).map paletteColor

/-- The indices extracted from the byte `chunk` at scanline position
`ndx` (bitmap.rs:495-512, the `for i in 1..=pixels_per_bit` loop).  The
`break` condition `ppb·ndx + i > width as usize` is monotone in `i`, so
the early exit is a filter.  `widthUsize` is the signed width cast
`as usize` (two's complement); the shift-and-mask is the `bit_depth`-bit
field of the byte, most significant bits first. -/
def indicesFromByte (bitDepth ppb widthUsize ndx chunk : Nat) : List Nat :=
  (List.range ppb).filterMap fun i0 =>
    let i := i0 + 1
    if ppb * ndx + i > widthUsize then none
    else some (chunk / 2 ^ (8 - bitDepth * i) % 2 ^ bitDepth)

/-- Decode one indexed scanline (bitmap.rs:494-512): bytes at positions
below the unpadded width `slwTemp` are unpacked, trailing pad bytes are
ignored. -/
def decodeIndexedScanline (bitDepth ppb widthUsize slwTemp : Nat)
    (scanline : List Nat) : List Nat :=
  (scanline.enum.map fun p =>
    if p.1 < slwTemp then indicesFromByte bitDepth ppb widthUsize p.1 p.2 else []).flatten

/-- Decode one direct-color scanline (bitmap.rs:549-569): chunks of
`bytesPerPixel` bytes in blue-green-red[-alpha] order; a short final
chunk (zero padding) and chunks beyond `absWidth` pixels are ignored;
for 3-byte pixels alpha is forced to 0xFF. -/
def directColorOf (bytesPerPixel : Nat) (chunk : List Nat) : ARGB :=
  { blue := chunk.getD 0 0
    green := chunk.getD 1 0
    red := chunk.getD 2 0
    alpha := if bytesPerPixel = 4 then chunk.getD 3 0 else 0xFF }

/-- One iteration of the direct-color chunk loop (bitmap.rs:553-569):
a chunk is appended as a pixel only when it is full-sized (not padding)
and the line has not yet reached the pixel width. -/
def directStep (bytesPerPixel absWidth : Nat) (line : List ARGB)
    (chunk : List Nat) : List ARGB :=
  if chunk.length = bytesPerPixel ∧ line.length < absWidth then
    line ++ [directColorOf bytesPerPixel chunk]
  else line

def decodeDirectScanline (bytesPerPixel absWidth : Nat) (scanline : List Nat) :
    List ARGB :=
  (listChunks bytesPerPixel scanline).foldl (directStep bytesPerPixel absWidth) []

/-- The scanline-reading loop shared by both decode paths
(bitmap.rs:479-517 and 536-577): repeatedly take `slw` bytes; when fewer
than `slw` bytes remain, take what remains and stop.  `fuel` bounds the
iterations: when `slw = 0` the source loop never terminates, which
surfaces here as `none` once the fuel is exhausted. -/
def splitScanlines (slw : Nat) : Nat → List Nat → Option (List (List Nat))
  | 0, _ => none
  | fuel + 1, rem =>
    if rem.length < slw then some [rem]
    else (splitScanlines slw fuel (rem.drop slw)).map (rem.take slw :: ·)

/-- `impl TryFrom<&[u8]> for Bitmap` (bitmap.rs:391-596).  Outcomes:
`panic` when a header or color-table slice runs past the buffer end,
`err` for a data offset inside the headers or an unsupported bit depth,
`diverge` for the zero scanline-width infinite loop, `ok` otherwise. -/
def decodeBitmap (value : List Nat) : RRes Bitmap :=
  if value.length < 54 then .panic
  else
    let header := parseHeader value
    let info_header := parseInfoHeader value
    if header.data_offset < 54 then
      .err "Bitmap data is malformed; data offset points to the info header."
    else
      let color_table_length := header.data_offset - 54
      if 0 < color_table_length ∧ value.length < header.data_offset then .panic
      else
        let color_table : BitmapColorTable :=
          ⟨if 0 < color_table_length then
              parseColorTable (bytesAt value 54 color_table_length)
            else []⟩
        let pixelRegion := value.drop header.data_offset
        if info_header.bit_depth = 1 ∨ info_header.bit_depth = 4 ∨
            info_header.bit_depth = 8 then
          let ppb := (8 + info_header.bit_depth - 1) / info_header.bit_depth
          let slwTemp := (info_header.width.natAbs + ppb - 1) / ppb
          let slw := roundToNextMultipleOf4 slwTemp
          let widthUsize := ((info_header.width % (2 ^ 64 : Int)).toNat)
          match splitScanlines slw (pixelRegion.length + 1) pixelRegion with
          | none => .diverge
          | some scanlines =>
            .ok { header := header
                  info_header := info_header
                  color_table := color_table
                  pixels := ⟨.Indices ((scanlines.map
                    (decodeIndexedScanline info_header.bit_depth ppb widthUsize
                      slwTemp)).flatten)⟩ }
        else if info_header.bit_depth = 16 then
          .err "Not implemented for 16-bit images!"
        else if info_header.bit_depth = 24 ∨ info_header.bit_depth = 32 then
          let bytesPerPixel := (info_header.bit_depth + 7) / 8
          let slwTemp := info_header.width.natAbs * bytesPerPixel
          let slw := roundToNextMultipleOf4 slwTemp
          match splitScanlines slw (pixelRegion.length + 1) pixelRegion with
          | none => .diverge
          | some scanlines =>
            .ok { header := header
                  info_header := info_header
                  color_table := color_table
                  pixels := ⟨.Colors ((scanlines.map
                    (decodeDirectScanline bytesPerPixel
                      info_header.width.natAbs)).flatten)⟩ }
        else
          .err ("Not implemented for " ++ toString info_header.bit_depth ++
            "-bit images!")

/-! ### Bitmap encode (impl TryFrom<Bitmap> for Vec<u8>, bitmap.rs:613-708) -/

/-- One iteration of the index-packing loop (the body of the
`for (index, color_index) in scanline.iter().enumerate()` loop,
bitmap.rs:633-659).  The state is (first, current, bytes); `lastIdx` is
`scanline.len() - 1`.  The mask `((2 << (bd+1)) - 1) as u8` equals
`2^(min (bd+2) 8) - 1`, so the masking is a remainder; the u8 shift and
add are reduced mod 256 where the source could wrap. -/
def packStep (bitDepth ppb lastIdx : Nat) (st : Bool × Nat × List Nat)
    (p : Nat × Nat) : Bool × Nat × List Nat :=
  let first := st.1
  let current := st.2.1
  let bytes := st.2.2
  let index := p.1
  let normalized := p.2 % 2 ^ (min (bitDepth + 2) 8)
  let indexMod := index % ppb
  let first2 := if indexMod = 0 then false else first
  let bytes2 :=
    if indexMod = 0 then (if first then bytes else bytes ++ [current]) else bytes
  let current2 := if indexMod = 0 then 0 else current
  let shifted := normalized * 2 ^ (8 - bitDepth - indexMod * bitDepth) % 256
  let current3 := (current2 + shifted) % 256
  let bytes3 := if index = lastIdx then bytes2 ++ [current3] else bytes2
  (first2, current3, bytes3)

/-- Pack one scanline of color-table indices into bytes (the
`[1,4,8]` branch of the encoder, bitmap.rs:626-659). -/
def packIndexedScanline (bitDepth ppb : Nat) (scanline : List Nat) : List Nat :=
  (scanline.enum.foldl (packStep bitDepth ppb (scanline.length - 1))
    (true, 0, [])).2.2

/-- The bytes of one direct color (bitmap.rs:673-678):
`as_u32(false).to_le_bytes()` truncated to `bytesPerPixel` bytes, which
is blue, green, red and (for 4 bytes) alpha. -/
def colorToBytes (bytesPerPixel : Nat) (c : ARGB) : List Nat :=
  (u32ToLeBytes (c.asU32 false)).take bytesPerPixel

/-- `Vec::resize(round4(len), 0)` (bitmap.rs:663,681): zero padding up to
the next multiple of 4. -/
def padTo4 (bytes : List Nat) : List Nat :=
  bytes ++ List.replicate (roundToNextMultipleOf4 bytes.length - bytes.length) 0

/-- The pixel-data section of the encoder (bitmap.rs:617-685): the exact
`width`-sized chunks of the stored pixel data, each packed and
zero-padded to a multiple of 4 bytes.  (`chunks_exact` panics when
`width = 0`; `encodeBitmap` carries that case.) -/
def pixelDataBytes (value : Bitmap) : List Nat :=
  let width := value.info_header.width.natAbs
  match value.pixels.pixels with
  | .Indices indices =>
    ((listChunksExact width indices).map fun scanline =>
      padTo4 (if value.info_header.bit_depth = 1 ∨
          value.info_header.bit_depth = 4 ∨ value.info_header.bit_depth = 8 then
        packIndexedScanline value.info_header.bit_depth
          ((8 + value.info_header.bit_depth - 1) / value.info_header.bit_depth)
          scanline
      else [])).flatten
  | .Colors colors =>
    ((listChunksExact width colors).map fun scanline =>
      padTo4 ((scanline.map
        (colorToBytes ((value.info_header.bit_depth + 7) / 8))).flatten)).flatten

/-- The color-table section of the encoder (bitmap.rs:703-705):
`as_u32(false).to_le_bytes()` of each entry, i.e. blue, green, red,
alpha. -/
def colorTableBytes (colors : List ARGB) : List Nat :=
  (colors.map fun c => u32ToLeBytes (c.asU32 false)).flatten

/-- The full byte image of a bitmap (bitmap.rs:688-706): file header,
info header, color table, pixel data. -/
def bitmapBytes (value : Bitmap) : List Nat :=
  u16ToLeBytes value.header.signature ++
    u32ToLeBytes value.header.file_size ++
    u32ToLeBytes value.header.reserved ++
    u32ToLeBytes value.header.data_offset ++
    u32ToLeBytes value.info_header.size ++
    i32ToLeBytes value.info_header.width ++
    i32ToLeBytes value.info_header.height ++
    u16ToLeBytes value.info_header.planes ++
    u16ToLeBytes value.info_header.bit_depth ++
    u32ToLeBytes value.info_header.compression ++
    u32ToLeBytes value.info_header.image_size ++
    i32ToLeBytes value.info_header.x_pixels_per_meter ++
    i32ToLeBytes value.info_header.y_pixels_per_meter ++
    u32ToLeBytes value.info_header.colors_used ++
    u32ToLeBytes value.info_header.important_colors ++
    colorTableBytes value.color_table.colors ++
    pixelDataBytes value

/-- `impl TryFrom<Bitmap> for Vec<u8>` (bitmap.rs:613-708): panics when
the stored width is 0 (`chunks_exact(0)`), otherwise `Ok` of the
concatenated byte image. -/
def encodeBitmap (value : Bitmap) : RRes (List Nat) :=
  if value.info_header.width.natAbs = 0 then .panic
  else .ok (bitmapBytes value)

/-! ### Image ↔ Bitmap adapters (bitmap.rs:714-855) -/

/-- The rows of an `Image` in the order produced by `Image::iter()`:
top to bottom, each row the slice `pixels[w·j .. w·(j+1)]`. -/
def Image.rowsOf (img : Image) : List (List ARGB) :=
  (List.range img.height).map fun j => (img.pixels.drop (img.width * j)).take img.width

/-- `impl ConvertableFrom<Image> for Bitmap` (bitmap.rs:714-804).
`Image::row` panics when the backing list is shorter than width·height.
For indexed depths the color table is a `HashMap` keyed by
`pixel.as_u32(true)` mapping to the `u8` insertion index (hence the
`% 256` on stored indices); the table colors are kept in first-insertion
order.  `image_size` in the info header is the literal `0_u32` of the
source.  The u32 casts and sums are reduced mod 2^32; they agree with
the source's wrapping arithmetic whenever `width·bytes_per_pixel + 3`
fits in an i32 (the bound carried by the theorems below). -/
def imageToBitmap (value : Image) (options : BitmapConvertData) : RRes Bitmap :=
  if value.pixels.length < value.width * value.height then .panic
  else
    let indexed := options.bit_depth = 1 ∨ options.bit_depth = 4 ∨
      options.bit_depth = 8
    let tableAndIndices : List ARGB × List Nat :=
      (value.rowsOf.flatten).foldl
        (fun (st : List ARGB × List Nat) pixel =>
          match st.1.findIdx? (fun c => c.asU32 true = pixel.asU32 true) with
          | some k => (st.1, st.2 ++ [k % 256])
          | none => (st.1 ++ [pixel], st.2 ++ [st.1.length % 256]))
        ([], [])
    let color_table_colors : List ARGB := if indexed then tableAndIndices.1 else []
    let pixels : BitmapPixelData :=
      if indexed then .Indices tableAndIndices.2
      else .Colors (value.rowsOf.reverse.flatten)
    let data_offset := (14 + 40 + 4 * color_table_colors.length) % 2 ^ 32
    let bytes_per_pixel := (options.bit_depth + 7) / 8
    let image_size :=
      (roundToNextMultipleOf4 (value.width * bytes_per_pixel) * value.height) % 2 ^ 32
    .ok { header := { signature := 0x4D42
                      file_size := (data_offset + image_size) % 2 ^ 32
                      reserved := 0
                      data_offset := data_offset }
          info_header := { size := 40
                           width := usizeAsI32 value.width
                           height := usizeAsI32 value.height
                           planes := 1
                           bit_depth := options.bit_depth
                           compression := options.compression
                           image_size := 0
                           x_pixels_per_meter := options.x_pixels_per_meter
                           y_pixels_per_meter := options.y_pixels_per_meter
                           colors_used := color_table_colors.length % 2 ^ 32
                           important_colors := 0 }
          color_table := ⟨color_table_colors⟩
          pixels := ⟨pixels⟩ }

/-- The pixel stored at flat index `index` of a bitmap's pixel data
(the match at bitmap.rs:843-846): a direct color, or a color-table
lookup of an index; `none` when either indexing panics. -/
def storedColor (value : Bitmap) (index : Nat) : Option ARGB :=
  match value.pixels.pixels with
  | .Indices indices =>
    (indices.get? index).bind fun k => value.color_table.colors.get? k
  | .Colors colors => colors.get? index

/-- The pixel placed at grid coordinate (column `c`, row `r`) by
`ConvertableFrom<Bitmap> for Image` (bitmap.rs:823-850): the row index is
mirrored unless the stored height is negative, the column index is
mirrored when the stored width is negative, and the flat index is
`absW·(absH − j − 1) + i` computed in `u32` (bitmap.rs:838), hence
reduced mod 2^32 as in the source's release-mode wrap. -/
def bitmapPixelAt (value : Bitmap) (r c : Nat) : Option ARGB :=
  let width := value.info_header.width
  let height := value.info_header.height
  let absW := width.natAbs
  let absH := height.natAbs
  let j := if height < 0 then absH - 1 - r else r
  let i := if width < 0 then absW - 1 - c else c
  storedColor value ((absW * (absH - j - 1) + i) % 2 ^ 32)

/-- `impl ConvertableFrom<Bitmap> for Image` (bitmap.rs:809-855).  Rows
are read bottom-up unless the height is negative, columns left-to-right
unless the width is negative; indexed pixels are resolved through the
color table by direct indexing, so an out-of-range flat index or table
index panics. -/
def bitmapToImage (value : Bitmap) : RRes Image :=
  match (List.range value.info_header.height.natAbs).mapM
      (fun r => (List.range value.info_header.width.natAbs).mapM
        (bitmapPixelAt value r)) with
  | some rows =>
    .ok { width := value.info_header.width.natAbs
          height := value.info_header.height.natAbs
          pixels := rows.flatten }
  | none => .panic

/-- A bitmap with its two resolution fields replaced. -/
def setResolution (bm : Bitmap) (xr yr : Int) : Bitmap :=
  { bm with info_header :=
      { bm.info_header with x_pixels_per_meter := xr, y_pixels_per_meter := yr } }

/-! ### Generic list lemmas -/

theorem mapM_option_eq_map {α β : Type} (f : α → Option β) (g : α → β) :
    ∀ l : List α, (∀ x ∈ l, f x = some (g x)) → l.mapM f = some (l.map g) := by
  intro l
  induction l with
  | nil => intro _; rfl
  | cons a t ih =>
    intro h
    rw [List.mapM_cons, h a (List.mem_cons_self a t),
      ih fun x hx => h x (List.mem_cons_of_mem a hx)]
    rfl

theorem flatten_get_uniform {α : Type} (W : Nat) :
    ∀ (rows : List (List α)), (∀ l ∈ rows, l.length = W) → ∀ r c : Nat, c < W →
      rows.flatten.get? (r * W + c) = (rows.get? r).bind (fun l => l.get? c) := by
  intro rows
  induction rows with
  | nil => intro _ r c _; simp
  | cons l t ih =>
    intro h r c hc
    have hl : l.length = W := h l (List.mem_cons_self l t)
    cases r with
    | zero =>
      simp only [List.flatten_cons, Nat.zero_mul, Nat.zero_add]
      rw [List.get?_append (by omega)]
      rfl
    | succ r' =>
      simp only [List.flatten_cons]
      have harith : (r' + 1) * W + c = l.length + (r' * W + c) := by rw [hl]; ring
      rw [harith, List.get?_append_right (by omega)]
      have : l.length + (r' * W + c) - l.length = r' * W + c := by omega
      rw [this, ih (fun x hx => h x (List.mem_cons_of_mem l hx)) r' c hc]
      rfl

end RustImages

namespace RustImages

/-! ## Claims C3 and C4 -/

/-- C3 (counterexample): the claim says every unimplemented directed
color-space conversion "returns an unsupported-conversion error value (an
Err result) ... never a fault".  At the concrete input `⟨0,0,0,0⟩` with
white-point options `(0,0,0)`, the LAB→Direct conversion does not return
an `Err` at all: its `todo!()` body panics. -/
theorem lab_to_direct_at_zero_is_panic_not_err :
    argbFromALAB ⟨0, 0, 0, 0⟩ ⟨(0, 0, 0)⟩ = RRes.panic ∧
      (argbFromALAB ⟨0, 0, 0, 0⟩ ⟨(0, 0, 0)⟩).isErr = false := by
  exact ⟨rfl, rfl⟩

/-- C3 (amended): for every input color value and every options value,
each of the eight unimplemented directed conversions — LAB→Direct,
LAB→XYZ, LAB→HSV, HSV→Direct, HSV→XYZ, HSV→LAB, XYZ→Direct, XYZ→HSV —
panics with the `todo!()` "not yet implemented" fault; it never returns a
default/zero color (no `ok` result) and never returns an `err` value. -/
theorem unimplemented_conversions_all_panic :
    (∀ (v : ALAB) (o : LABSettings), argbFromALAB v o = RRes.panic) ∧
    (∀ (v : ALAB) (o : LABSettings), axyzFromALAB v o = RRes.panic) ∧
    (∀ (v : ALAB) (o : LABSettings), ahsvFromALAB v o = RRes.panic) ∧
    (∀ (v : AHSV) (o : Unit), argbFromAHSV v o = RRes.panic) ∧
    (∀ (v : AHSV) (o : Unit), axyzFromAHSV v o = RRes.panic) ∧
    (∀ (v : AHSV) (o : LABSettings), alabFromAHSV v o = RRes.panic) ∧
    (∀ (v : AXYZ) (o : Unit), argbFromAXYZ v o = RRes.panic) ∧
    (∀ (v : AXYZ) (o : Unit), ahsvFromAXYZ v o = RRes.panic) := by
  refine ⟨fun _ _ => rfl, fun _ _ => rfl, fun _ _ => rfl, fun _ _ => rfl,
    fun _ _ => rfl, fun _ _ => rfl, fun _ _ => rfl, fun _ _ => rfl⟩

/-- A syntactically well-formed 54-byte header whose data offset (100)
points past the end of the buffer: 1×1 pixels, bit depth 24. -/
def headerWithFarOffset : List Nat :=
  [0x42, 0x4D, 102, 0, 0, 0, 0, 0, 0, 0, 100, 0, 0, 0,
   40, 0, 0, 0, 1, 0, 0, 0, 1, 0, 0, 0, 1, 0, 24, 0,
   0, 0, 0, 0, 0, 0, 0, 0, 0, 0, 0, 0, 0, 0, 0, 0,
   0, 0, 0, 0, 0, 0, 0, 0]

/-- A 54-byte buffer with data offset 54, bit depth 24 and width 0: the
decode scanline loop then consumes 0 bytes per iteration and never
reaches its exit condition. -/
def headerWithZeroWidth : List Nat :=
  [0x42, 0x4D, 54, 0, 0, 0, 0, 0, 0, 0, 54, 0, 0, 0,
   40, 0, 0, 0, 0, 0, 0, 0, 1, 0, 0, 0, 1, 0, 24, 0,
   0, 0, 0, 0, 0, 0, 0, 0, 0, 0, 0, 0, 0, 0, 0, 0,
   0, 0, 0, 0, 0, 0, 0, 0]

/-- C5: the claim says decoding any byte sequence terminates and returns
a value (Ok or a descriptive error) and never panics, in particular for
buffers shorter than 54 bytes and for data offsets past the buffer end.
In fact: the empty buffer panics (the very first header slice
`&buffer[0..2]` is out of range), a 54-byte buffer whose data offset is
100 panics (the color-table slice `&buffer[54..100]` is out of range),
and a 54-byte buffer with width 0 and bit depth 24 never terminates (the
scanline loop makes no progress when the scanline width is 0). -/
theorem decode_faults_on_malformed_buffers :
    decodeBitmap [] = RRes.panic ∧
    decodeBitmap headerWithFarOffset = RRes.panic ∧
    decodeBitmap headerWithZeroWidth = RRes.diverge := by
  refine ⟨rfl, by decide, by decide⟩

/-- C4: the claim says `Image::get(x, y)` returns `None` whenever
`x ≥ width` or `y ≥ height` and never panics.  On the 2×2 image below
(backing capacity 4, as allocated by `vec![d; 4]`), `get 2 0` has
`x ≥ width` but returns `Some` of the pixel stored at flat index 2 (the
first pixel of row 1), and `get 0 2` panics: the flat index 4 passes the
`index > capacity` test (4 > 4 is false) and `pixels[4]` is out of range. -/
theorem image_get_wrong_bounds_check :
    (Image.get ⟨2, 2, [⟨0, 0, 0, 255⟩, ⟨1, 0, 0, 255⟩, ⟨2, 0, 0, 255⟩, ⟨3, 0, 0, 255⟩]⟩
        4 2 0 = RRes.ok (some ⟨2, 0, 0, 255⟩)) ∧
    (Image.get ⟨2, 2, [⟨0, 0, 0, 255⟩, ⟨1, 0, 0, 255⟩, ⟨2, 0, 0, 255⟩, ⟨3, 0, 0, 255⟩]⟩
        4 0 2 = RRes.panic) := by
  exact ⟨rfl, rfl⟩

end RustImages

namespace RustImages

/-! ## Claim C7: orientation signs -/

/-- C7: converting a Bitmap to an Image, the decoded grid row `r` comes
from stored scanline `r` (file order, top-to-bottom) when the info-header
height is negative, and from stored scanline `H−1−r` (bottom-to-top)
otherwise; the column is mirrored to `W−1−c` exactly when the width is
negative; and the two resolution fields never affect the conversion.
The `hsome` hypothesis says every flat pixel index below `W·H` resolves
(no out-of-range indexing); `hsize` keeps the pixel count inside `u32`,
where the source's u32 index arithmetic (bitmap.rs:838) cannot wrap. -/
theorem bitmap_orientation_follows_size_signs (bm : Bitmap)
    (hsome : ∀ i, i < bm.info_header.width.natAbs * bm.info_header.height.natAbs →
      (storedColor bm i).isSome)
    (hsize : bm.info_header.width.natAbs * bm.info_header.height.natAbs <
      2 ^ 32) :
    (∃ p : List ARGB,
      bitmapToImage bm =
        RRes.ok ⟨bm.info_header.width.natAbs, bm.info_header.height.natAbs, p⟩ ∧
      ∀ r c, r < bm.info_header.height.natAbs → c < bm.info_header.width.natAbs →
        p.get? (r * bm.info_header.width.natAbs + c) =
          storedColor bm
            ((if bm.info_header.height < 0 then r
              else bm.info_header.height.natAbs - 1 - r) *
                bm.info_header.width.natAbs +
              (if bm.info_header.width < 0 then bm.info_header.width.natAbs - 1 - c
                else c))) ∧
    (∀ xr yr : Int, bitmapToImage (setResolution bm xr yr) = bitmapToImage bm) := by
  set W := bm.info_header.width.natAbs with hWdef
  set H := bm.info_header.height.natAbs with hHdef
  -- the source flat index for output coordinate (r, c)
  set srcIdx := fun r c : Nat =>
    (if bm.info_header.height < 0 then r else H - 1 - r) * W +
      (if bm.info_header.width < 0 then W - 1 - c else c) with hsrcIdx
  have hbound : ∀ r c, r < H → c < W → srcIdx r c < W * H := by
    intro r c hr hc
    simp only [hsrcIdx]
    have h1 : (if bm.info_header.height < 0 then r else H - 1 - r) ≤ H - 1 := by
      split <;> omega
    have h2 : (if bm.info_header.width < 0 then W - 1 - c else c) ≤ W - 1 := by
      split <;> omega
    have h3 : (if bm.info_header.height < 0 then r else H - 1 - r) * W ≤
        (H - 1) * W := Nat.mul_le_mul_right W h1
    have h4 : (H - 1 + 1) * W = (H - 1) * W + W := by ring
    have h5 : H - 1 + 1 = H := by omega
    rw [h5] at h4
    have h6 : W * H = H * W := Nat.mul_comm W H
    omega
  have hidx : ∀ r c, r < H → c < W →
      W * (H - (if bm.info_header.height < 0 then H - 1 - r else r) - 1) +
        (if bm.info_header.width < 0 then W - 1 - c else c) = srcIdx r c := by
    intro r c hr hc
    rw [hsrcIdx]
    by_cases hh : bm.info_header.height < 0 <;>
      by_cases hw : bm.info_header.width < 0 <;>
      simp only [hh, hw, if_true, if_false]
    · have h1 : H - (H - 1 - r) - 1 = r := by omega
      rw [h1, Nat.mul_comm]
    · have h1 : H - (H - 1 - r) - 1 = r := by omega
      rw [h1, Nat.mul_comm]
    · have h1 : H - r - 1 = H - 1 - r := by omega
      rw [h1, Nat.mul_comm]
    · have h1 : H - r - 1 = H - 1 - r := by omega
      rw [h1, Nat.mul_comm]
  have hsrc : ∀ r c, r < H → c < W →
      bitmapPixelAt bm r c = storedColor bm (srcIdx r c) := by
    intro r c hr hc
    show storedColor bm
      ((W * (H - (if bm.info_header.height < 0 then H - 1 - r else r) - 1) +
        (if bm.info_header.width < 0 then W - 1 - c else c)) % 2 ^ 32) =
      storedColor bm (srcIdx r c)
    rw [hidx r c hr hc,
      Nat.mod_eq_of_lt (by have := hbound r c hr hc; omega)]
  set g := fun r c : Nat => (storedColor bm (srcIdx r c)).getD ⟨0, 0, 0, 0⟩ with hgdef
  have hg : ∀ r c, r < H → c < W → storedColor bm (srcIdx r c) = some (g r c) := by
    intro r c hr hc
    have hs := hsome (srcIdx r c) (hbound r c hr hc)
    cases heq : storedColor bm (srcIdx r c) with
    | none => rw [heq] at hs; simp at hs
    | some v => rw [hgdef]; simp [heq]
  have hinner : ∀ r, r < H →
      (List.range W).mapM (bitmapPixelAt bm r) = some ((List.range W).map (g r)) := by
    intro r hr
    refine mapM_option_eq_map _ _ _ fun c hc => ?_
    have hcW := List.mem_range.mp hc
    rw [hsrc r c hr hcW, hg r c hr hcW]
  have houter : (List.range H).mapM
        (fun r => (List.range W).mapM (bitmapPixelAt bm r)) =
      some ((List.range H).map (fun r => (List.range W).map (g r))) := by
    refine mapM_option_eq_map _ _ _ fun r hr => ?_
    exact hinner r (List.mem_range.mp hr)
  have hmain : bitmapToImage bm =
      RRes.ok ⟨W, H, ((List.range H).map (fun r => (List.range W).map (g r))).flatten⟩ := by
    unfold bitmapToImage
    rw [← hWdef, ← hHdef, houter]
  refine ⟨⟨_, hmain, ?_⟩, fun _ _ => rfl⟩
  intro r c hr hc
  have hrowsLen : ∀ l ∈ (List.range H).map (fun r => (List.range W).map (g r)),
      l.length = W := by
    intro l hl
    rcases List.mem_map.mp hl with ⟨r', _, rfl⟩
    simp
  rw [flatten_get_uniform W _ hrowsLen r c hc]
  rw [List.get?_map, List.get?_range hr]
  show ((List.range W).map (g r)).get? c = _
  rw [List.get?_map, List.get?_range hc]
  show some (g r c) = _
  exact (hg r c hr hc).symm

/-- C7 witness: the theorem applied to a concrete 2×2 bitmap with
negative stored height and direct colors. -/
theorem bitmap_orientation_follows_size_signs_witness :
    (∃ p : List ARGB,
      bitmapToImage
          ⟨⟨0x4D42, 70, 0, 54⟩, ⟨40, 2, -2, 1, 24, 0, 0, 0, 0, 0, 0⟩, ⟨[]⟩,
            ⟨.Colors [⟨1, 0, 0, 255⟩, ⟨2, 0, 0, 255⟩, ⟨3, 0, 0, 255⟩, ⟨4, 0, 0, 255⟩]⟩⟩ =
        RRes.ok ⟨2, 2, p⟩ ∧
      ∀ r c, r < 2 → c < 2 →
        p.get? (r * 2 + c) =
          storedColor
            ⟨⟨0x4D42, 70, 0, 54⟩, ⟨40, 2, -2, 1, 24, 0, 0, 0, 0, 0, 0⟩, ⟨[]⟩,
              ⟨.Colors [⟨1, 0, 0, 255⟩, ⟨2, 0, 0, 255⟩, ⟨3, 0, 0, 255⟩, ⟨4, 0, 0, 255⟩]⟩⟩
            ((if (-2 : Int) < 0 then r else 2 - 1 - r) * 2 +
              (if (2 : Int) < 0 then 2 - 1 - c else c))) ∧
    (∀ xr yr : Int,
      bitmapToImage
          (setResolution
            ⟨⟨0x4D42, 70, 0, 54⟩, ⟨40, 2, -2, 1, 24, 0, 0, 0, 0, 0, 0⟩, ⟨[]⟩,
              ⟨.Colors [⟨1, 0, 0, 255⟩, ⟨2, 0, 0, 255⟩, ⟨3, 0, 0, 255⟩, ⟨4, 0, 0, 255⟩]⟩⟩
            xr yr) =
        bitmapToImage
          ⟨⟨0x4D42, 70, 0, 54⟩, ⟨40, 2, -2, 1, 24, 0, 0, 0, 0, 0, 0⟩, ⟨[]⟩,
            ⟨.Colors [⟨1, 0, 0, 255⟩, ⟨2, 0, 0, 255⟩, ⟨3, 0, 0, 255⟩, ⟨4, 0, 0, 255⟩]⟩⟩) := by
  exact bitmap_orientation_follows_size_signs _ (by decide) (by decide)

end RustImages


namespace RustImages

/-! ### Properties of the chunking helpers -/

theorem listChunksAux_nil {α : Type} (k fuel : Nat) :
    listChunksAux (α := α) k fuel [] = [] := by
  cases fuel <;> rfl

theorem listChunksAux_cons {α : Type} (k f : Nat) (a : α) (t : List α) :
    listChunksAux k (f + 1) (a :: t) =
      (a :: t).take k :: listChunksAux k f ((a :: t).drop k) := rfl

theorem listChunksAux_fuel {α : Type} (k : Nat) (hk : 0 < k) :
    ∀ (fuel : Nat) (l : List α), l.length ≤ fuel →
      listChunksAux k fuel l = listChunks k l := by
  intro fuel
  induction fuel using Nat.strong_induction_on with
  | _ fuel ih =>
    intro l hl
    cases l with
    | nil => rw [listChunksAux_nil, listChunks, List.length_nil, listChunksAux_nil]
    | cons a t =>
      cases fuel with
      | zero => simp at hl
      | succ f =>
        rw [listChunksAux_cons, listChunks, List.length_cons, listChunksAux_cons]
        have hl' : t.length + 1 ≤ f + 1 := by simpa using hl
        have hdl : ((a :: t).drop k).length ≤ t.length := by
          simp only [List.length_drop, List.length_cons]; omega
        rw [ih f (by omega) _ (by omega),
          ih t.length (by omega) _ hdl]

theorem listChunks_cons {α : Type} (k : Nat) (hk : 0 < k) (a : α) (t : List α) :
    listChunks k (a :: t) = (a :: t).take k :: listChunks k ((a :: t).drop k) := by
  rw [listChunks, List.length_cons, listChunksAux_cons]
  rw [listChunksAux_fuel k hk t.length _
    (by simp only [List.length_drop, List.length_cons]; omega)]

theorem listChunks_short {α : Type} (k : Nat) (hk : 0 < k) (l : List α)
    (h0 : l ≠ []) (hle : l.length ≤ k) : listChunks k l = [l] := by
  cases l with
  | nil => exact absurd rfl h0
  | cons a t =>
    rw [listChunks_cons k hk, List.take_of_length_le hle, List.drop_eq_nil_of_le hle]
    rfl

theorem listChunks_append_chunk {α : Type} (k : Nat) (hk : 0 < k) (l r : List α)
    (hl : l.length = k) : listChunks k (l ++ r) = l :: listChunks k r := by
  have h1 : (l ++ r).take k = l := by rw [← hl]; exact List.take_left l r
  have h2 : (l ++ r).drop k = r := by rw [← hl]; exact List.drop_left l r
  cases l with
  | nil => simp at hl; omega
  | cons a t =>
    rw [List.cons_append, listChunks_cons k hk]
    rw [List.cons_append] at h1 h2
    rw [h1, h2]

theorem listChunks_flatten_append {α : Type} (k : Nat) (hk : 0 < k) :
    ∀ (rows : List (List α)) (r : List α), (∀ l ∈ rows, l.length = k) →
      listChunks k (rows.flatten ++ r) = rows ++ listChunks k r := by
  intro rows
  induction rows with
  | nil => intro r _; simp
  | cons l t ih =>
    intro r h
    rw [List.flatten_cons, List.append_assoc,
      listChunks_append_chunk k hk _ _ (h l (List.mem_cons_self l t)),
      ih r (fun x hx => h x (List.mem_cons_of_mem l hx))]
    rfl

theorem listChunks_nil {α : Type} (k : Nat) : listChunks k ([] : List α) = [] := rfl

theorem listChunks_flatten {α : Type} (k : Nat) (hk : 0 < k)
    (rows : List (List α)) (h : ∀ l ∈ rows, l.length = k) :
    listChunks k rows.flatten = rows := by
  have := listChunks_flatten_append k hk rows [] h
  simpa [listChunks_nil] using this

theorem listChunksExact_flatten {α : Type} (k : Nat) (hk : 0 < k)
    (rows : List (List α)) (h : ∀ l ∈ rows, l.length = k) :
    listChunksExact k rows.flatten = rows := by
  rw [listChunksExact, listChunks_flatten k hk rows h]
  exact List.filter_eq_self.mpr (fun l hl => by simp [h l hl])

theorem flatten_listChunks {α : Type} (k : Nat) (hk : 0 < k) :
    ∀ l : List α, (listChunks k l).flatten = l := by
  have haux : ∀ (fuel : Nat) (l : List α), l.length ≤ fuel →
      (listChunksAux k fuel l).flatten = l := by
    intro fuel
    induction fuel with
    | zero =>
      intro l hl
      have : l = [] := List.length_eq_zero.mp (by omega)
      subst this; rfl
    | succ f ih =>
      intro l hl
      cases l with
      | nil => rfl
      | cons a t =>
        have hl' : t.length + 1 ≤ f + 1 := by simpa using hl
        rw [listChunksAux_cons, List.flatten_cons,
          ih _ (by simp only [List.length_drop, List.length_cons]; omega),
          List.take_append_drop]
  intro l
  exact haux l.length l (Nat.le_refl _)

theorem listChunks_get {α : Type} (k : Nat) (hk : 0 < k) :
    ∀ (j : Nat) (l : List α) (chunk : List α),
      (listChunks k l).get? j = some chunk →
      chunk = (l.drop (k * j)).take k ∧ k * j < l.length := by
  intro j
  induction j with
  | zero =>
    intro l chunk h
    cases l with
    | nil => simp [listChunks_nil] at h
    | cons a t =>
      rw [listChunks_cons k hk] at h
      simp only [List.get?_cons_zero, Option.some_inj] at h
      refine ⟨by rw [← h]; simp, by simp⟩
  | succ j ih =>
    intro l chunk h
    cases l with
    | nil => simp [listChunks_nil] at h
    | cons a t =>
      rw [listChunks_cons k hk] at h
      simp only [List.get?_cons_succ] at h
      obtain ⟨hc, hlt⟩ := ih _ _ h
      have hmul : k * (j + 1) = k * j + k := by ring
      constructor
      · rw [hc, List.drop_drop]
        congr 2
        omega
      · have hlen : (List.drop k (a :: t)).length = t.length + 1 - k := by
          simp [List.length_drop]
        rw [hlen] at hlt
        have hcons : (a :: t).length = t.length + 1 := by simp
        omega

theorem listChunks_length {α : Type} (k : Nat) (hk : 0 < k) (l : List α) :
    (listChunks k l).length = (l.length + k - 1) / k := by
  generalize hn : l.length = n
  induction n using Nat.strong_induction_on generalizing l with
  | _ n ih =>
    cases l with
    | nil =>
      simp only [List.length_nil] at hn
      subst hn
      show (0 : Nat) = (0 + k - 1) / k
      rw [Nat.div_eq_of_lt (by omega)]
    | cons a t =>
      rw [listChunks_cons k hk]
      by_cases hle : (a :: t).length ≤ k
      · rw [List.drop_eq_nil_of_le hle]
        show 0 + 1 = _
        simp only [List.length_cons] at hn hle
        have : (n + k - 1) / k = 1 :=
          Nat.div_eq_of_lt_le (by omega) (by omega)
        omega
      · have hdl : ((a :: t).drop k).length = n - k := by
          simp only [List.length_drop]; omega
        rw [List.length_cons, ih (n - k) (by simp at hn hle; omega) _ hdl]
        have h1 : (n - k + k - 1) / k + 1 = ((n - k + k - 1) + k) / k := by
          rw [Nat.add_div_right _ hk]
        have h2 : n - k + k - 1 + k = n + k - 1 := by
          simp only [List.length_cons] at hn hle; omega
        rw [h1, h2]

end RustImages

namespace RustImages

/-! ### Properties of the scanline splitter and padding -/

theorem splitScanlines_fuel (slw : Nat) (hslw : 0 < slw) :
    ∀ (fuel : Nat) (rem : List Nat), rem.length < fuel →
      splitScanlines slw fuel rem = splitScanlines slw (rem.length + 1) rem := by
  intro fuel
  induction fuel using Nat.strong_induction_on with
  | _ fuel ih =>
    intro rem h
    cases fuel with
    | zero => omega
    | succ f =>
      show (if rem.length < slw then some [rem]
          else (splitScanlines slw f (rem.drop slw)).map (rem.take slw :: ·)) = _
      by_cases hc : rem.length < slw
      · rw [if_pos hc]
        show _ = (if rem.length < slw then some [rem]
          else (splitScanlines slw rem.length (rem.drop slw)).map (rem.take slw :: ·))
        rw [if_pos hc]
      · rw [if_neg hc]
        show _ = (if rem.length < slw then some [rem]
          else (splitScanlines slw rem.length (rem.drop slw)).map (rem.take slw :: ·))
        rw [if_neg hc]
        have hdlen : (rem.drop slw).length = rem.length - slw := by
          simp [List.length_drop]
        rw [ih f (by omega) _ (by omega), ih rem.length (by omega) _ (by omega)]

theorem splitScanlines_flatten (slw : Nat) (hslw : 0 < slw) :
    ∀ rows : List (List Nat), (∀ l ∈ rows, l.length = slw) →
      splitScanlines slw (rows.flatten.length + 1) rows.flatten =
        some (rows ++ [[]]) := by
  intro rows
  induction rows with
  | nil =>
    intro _
    show (if ([] : List Nat).length < slw then some [([] : List Nat)] else _) = _
    rw [if_pos (by simpa using hslw)]
    rfl
  | cons l t ih =>
    intro h
    have hl : l.length = slw := h l (List.mem_cons_self l t)
    have hlen : (l :: t).flatten.length = slw + t.flatten.length := by
      simp [List.flatten_cons, hl]
    show (if (l :: t).flatten.length < slw then some [(l :: t).flatten]
        else (splitScanlines slw (l ++ t.flatten).length ((l :: t).flatten.drop slw)).map
          ((l :: t).flatten.take slw :: ·)) = _
    rw [if_neg (by omega)]
    have htake : (l :: t).flatten.take slw = l := by
      rw [List.flatten_cons, ← hl]; exact List.take_left l t.flatten
    have hdrop : (l :: t).flatten.drop slw = t.flatten := by
      rw [List.flatten_cons, ← hl]; exact List.drop_left l t.flatten
    rw [htake, hdrop]
    have hfl : (l ++ t.flatten).length = slw + t.flatten.length := by simp [hl]
    rw [hfl]
    rw [show splitScanlines slw (slw + t.flatten.length) t.flatten =
        splitScanlines slw (t.flatten.length + 1) t.flatten from
      splitScanlines_fuel slw hslw _ _ (by omega)]
    rw [ih (fun x hx => h x (List.mem_cons_of_mem l hx))]
    rfl

theorem le_roundToNextMultipleOf4 (n : Nat) : n ≤ roundToNextMultipleOf4 n := by
  rw [roundToNextMultipleOf4]; omega

theorem padTo4_length (bytes : List Nat) :
    (padTo4 bytes).length = roundToNextMultipleOf4 bytes.length := by
  have := le_roundToNextMultipleOf4 bytes.length
  simp [padTo4]
  omega

/-! ### Big-endian digit values: the arithmetic content of index packing -/

/-- The value of a big-endian digit string in base `B`. -/
def beDigits (B : Nat) : List Nat → Nat
  | [] => 0
  | d :: t => d * B ^ t.length + beDigits B t

theorem beDigits_lt (B : Nat) (hB : 0 < B) :
    ∀ ds : List Nat, (∀ d ∈ ds, d < B) → beDigits B ds < B ^ ds.length := by
  intro ds
  induction ds with
  | nil => intro _; simpa [beDigits] using hB
  | cons d t ih =>
    intro h
    have hd : d < B := h d (List.mem_cons_self d t)
    have ht := ih (fun x hx => h x (List.mem_cons_of_mem d hx))
    show d * B ^ t.length + beDigits B t < B ^ (t.length + 1)
    calc d * B ^ t.length + beDigits B t < d * B ^ t.length + B ^ t.length := by omega
      _ = (d + 1) * B ^ t.length := by ring
      _ ≤ B * B ^ t.length := Nat.mul_le_mul_right _ (by omega)
      _ = B ^ (t.length + 1) := by ring

theorem beDigits_extract (B : Nat) (hB : 0 < B) :
    ∀ (ds : List Nat), (∀ d ∈ ds, d < B) → ∀ i, i < ds.length →
      beDigits B ds / B ^ (ds.length - 1 - i) % B = ds.getD i 0 := by
  intro ds
  induction ds with
  | nil => intro _ i hi; simp at hi
  | cons d t ih =>
    intro h i hi
    have hd : d < B := h d (List.mem_cons_self d t)
    have ht : ∀ x ∈ t, x < B := fun x hx => h x (List.mem_cons_of_mem d hx)
    cases i with
    | zero =>
      show (d * B ^ t.length + beDigits B t) / B ^ ((d :: t).length - 1 - 0) % B = d
      have he : (d :: t).length - 1 - 0 = t.length := by simp
      rw [he, Nat.mul_comm d (B ^ t.length),
        Nat.mul_add_div (Nat.pos_pow_of_pos _ hB),
        Nat.div_eq_of_lt (beDigits_lt B hB t ht), Nat.add_zero,
        Nat.mod_eq_of_lt hd]
    | succ i =>
      have hi' : i < t.length := by simp at hi; omega
      have htl : 0 < t.length := by omega
      show (d * B ^ t.length + beDigits B t) / B ^ ((d :: t).length - 1 - (i + 1)) % B
          = t.getD i 0
      have he : (d :: t).length - 1 - (i + 1) = t.length - 1 - i := by simp; omega
      rw [he]
      have hele : t.length - 1 - i + 1 ≤ t.length := by omega
      have hsplit : B ^ t.length =
          B ^ (t.length - 1 - i) * B ^ (t.length - (t.length - 1 - i)) := by
        rw [← pow_add]; congr 1; omega
      have hrearr : d * B ^ t.length + beDigits B t =
          B ^ (t.length - 1 - i) * (d * B ^ (t.length - (t.length - 1 - i)))
            + beDigits B t := by rw [hsplit]; ring
      rw [hrearr, Nat.mul_add_div (Nat.pos_pow_of_pos _ hB)]
      have hpow : d * B ^ (t.length - (t.length - 1 - i)) =
          d * B ^ (t.length - (t.length - 1 - i) - 1) * B := by
        rw [Nat.mul_assoc, ← pow_succ]
        congr 2
        omega
      rw [hpow, Nat.add_comm, Nat.add_mul_mod_self_right]
      exact ih ht i hi'

end RustImages

namespace RustImages

/-! ### The index-packing loop in closed form -/

/-- The byte accumulated from one group of indices, starting at bit-field
position `m` with partial value `cur` (mirrors the arithmetic of
`packStep` on the positions inside one byte). -/
def packGroupAux (bitDepth : Nat) : Nat → Nat → List Nat → Nat
  | _, cur, [] => cur
  | m, cur, g :: t =>
    packGroupAux bitDepth (m + 1)
      ((cur + (g % 2 ^ (min (bitDepth + 2) 8)) *
        2 ^ (8 - bitDepth - m * bitDepth) % 256) % 256) t

/-- The byte packed from one group of at most `8 / bitDepth` indices. -/
def packGroup (bitDepth : Nat) (group : List Nat) : Nat :=
  packGroupAux bitDepth 0 0 group

theorem enumFrom_append_lemma {α : Type} :
    ∀ (l1 l2 : List α) (n : Nat),
      (l1 ++ l2).enumFrom n = l1.enumFrom n ++ l2.enumFrom (n + l1.length) := by
  intro l1
  induction l1 with
  | nil => intro l2 n; simp
  | cons a t ih =>
    intro l2 n
    simp only [List.cons_append, List.enumFrom_cons, ih, List.length_cons,
      List.cons_append]
    have : n + 1 + t.length = n + (t.length + 1) := by omega
    rw [this]

theorem packFold_inner (bd ppb lastIdx start : Nat) (hstart : start % ppb = 0) :
    ∀ (tail : List Nat) (m cur : Nat) (bytes : List Nat), 1 ≤ m → m + tail.length ≤ ppb →
      start + m + tail.length - 1 ≤ lastIdx →
      (tail.enumFrom (start + m)).foldl (packStep bd ppb lastIdx)
          (false, cur, bytes) =
        (false, packGroupAux bd m cur tail,
          bytes ++ if tail ≠ [] ∧ start + m + tail.length - 1 = lastIdx
            then [packGroupAux bd m cur tail] else []) := by
  intro tail
  induction tail with
  | nil =>
    intro m cur bytes _ _ _
    simp [packGroupAux]
  | cons g t ih =>
    intro m cur bytes h1 h2 h3
    have hppb : 0 < ppb := by omega
    have hlen : (g :: t).length = t.length + 1 := by simp
    have hmlt : m < ppb := by omega
    have hm0 : ¬ (m = 0) := by omega
    have hmod : (start + m) % ppb = m := by
      have hmm := Nat.mod_eq_of_lt hmlt
      rw [Nat.add_mod, hstart, Nat.zero_add, hmm, hmm]
    rw [List.enumFrom_cons, List.foldl_cons]
    have hstep : packStep bd ppb lastIdx (false, cur, bytes) (start + m, g) =
        (false,
         (cur + g % 2 ^ (min (bd + 2) 8) * 2 ^ (8 - bd - m * bd) % 256) % 256,
         if start + m = lastIdx
           then bytes ++
             [(cur + g % 2 ^ (min (bd + 2) 8) * 2 ^ (8 - bd - m * bd) % 256) % 256]
           else bytes) := by
      simp only [packStep, hmod, if_neg hm0]
    rw [hstep]
    cases t with
    | nil =>
      simp only [List.enumFrom_nil, List.foldl_nil]
      show _ = (false, packGroupAux bd (m + 1) _ [],
        bytes ++ if (g :: []) ≠ [] ∧ start + m + 1 - 1 = lastIdx
          then [packGroupAux bd (m + 1)
            ((cur + g % 2 ^ (min (bd + 2) 8) * 2 ^ (8 - bd - m * bd) % 256) % 256) []]
          else [])
      simp only [packGroupAux]
      by_cases hlast : start + m = lastIdx
      · rw [if_pos hlast, if_pos (show (g :: []) ≠ [] ∧ start + m + 1 - 1 = lastIdx
          from ⟨by simp, by omega⟩)]
      · rw [if_neg hlast,
          if_neg (show ¬ ((g :: []) ≠ [] ∧ start + m + 1 - 1 = lastIdx)
            from fun hc => hlast (by omega))]
        simp
    | cons g2 t2 =>
      have hne : ¬ (start + m = lastIdx) := by
        simp only [List.length_cons] at h3
        omega
      rw [if_neg hne]
      have harg : start + m + 1 = start + (m + 1) := by omega
      rw [harg,
        ih (m + 1) _ bytes (by omega)
          (by simp only [List.length_cons] at h2 ⊢; omega)
          (by simp only [List.length_cons] at h3 ⊢; omega)]
      show _ = (false, packGroupAux bd (m + 1) _ (g2 :: t2),
        bytes ++ if (g :: g2 :: t2) ≠ [] ∧
            start + m + (g :: g2 :: t2).length - 1 = lastIdx
          then [packGroupAux bd (m + 1)
            ((cur + g % 2 ^ (min (bd + 2) 8) * 2 ^ (8 - bd - m * bd) % 256) % 256)
            (g2 :: t2)]
          else [])
      have hcond : ((g2 :: t2) ≠ [] ∧ start + (m + 1) + (g2 :: t2).length - 1 = lastIdx)
          ↔ ((g :: g2 :: t2) ≠ [] ∧ start + m + (g :: g2 :: t2).length - 1 = lastIdx) := by
        simp only [List.length_cons]
        constructor
        · intro hc; exact ⟨by simp, by omega⟩
        · intro hc; exact ⟨by simp, by omega⟩
      by_cases hc : (g2 :: t2) ≠ [] ∧ start + (m + 1) + (g2 :: t2).length - 1 = lastIdx
      · rw [if_pos hc, if_pos (hcond.mp hc)]
      · rw [if_neg hc, if_neg (fun hcc => hc (hcond.mpr hcc))]

end RustImages

namespace RustImages

theorem packFold_group (bd ppb lastIdx start : Nat) (hstart : start % ppb = 0)
    (hppb : 0 < ppb) :
    ∀ (group : List Nat) (first : Bool) (cur : Nat) (bytes : List Nat),
      group ≠ [] → group.length ≤ ppb → start + group.length - 1 ≤ lastIdx →
      (group.enumFrom start).foldl (packStep bd ppb lastIdx) (first, cur, bytes) =
        (false, packGroup bd group,
          (if first then bytes else bytes ++ [cur]) ++
            (if start + group.length - 1 = lastIdx
              then [packGroup bd group] else [])) := by
  intro group first cur bytes hne hle hbound
  cases group with
  | nil => exact absurd rfl hne
  | cons g t =>
    rw [List.enumFrom_cons, List.foldl_cons]
    have hmod0 : start % ppb = 0 := hstart
    have hstep : packStep bd ppb lastIdx (first, cur, bytes) (start, g) =
        (false,
         (0 + g % 2 ^ (min (bd + 2) 8) * 2 ^ (8 - bd - 0 * bd) % 256) % 256,
         if start = lastIdx
           then (if first then bytes else bytes ++ [cur]) ++
             [(0 + g % 2 ^ (min (bd + 2) 8) * 2 ^ (8 - bd - 0 * bd) % 256) % 256]
           else (if first then bytes else bytes ++ [cur])) := by
      simp only [packStep, hmod0]
      simp
    rw [hstep]
    cases t with
    | nil =>
      simp only [List.enumFrom_nil, List.foldl_nil]
      by_cases hlast : start = lastIdx
      · rw [if_pos hlast,
          if_pos (show start + (g :: []).length - 1 = lastIdx by simp; omega)]
        rfl
      · rw [if_neg hlast,
          if_neg (show ¬ (start + (g :: []).length - 1 = lastIdx) by simp; omega)]
        show (false, _, _) = (false, _, _)
        refine congrArg _ (congrArg _ ?_)
        simp
    | cons g2 t2 =>
      have hlencons : (g :: g2 :: t2).length = t2.length + 2 := by simp
      have hne2 : ¬ (start = lastIdx) := by omega
      rw [if_neg hne2]
      have harg : start + 1 = start + 1 := rfl
      have := packFold_inner bd ppb lastIdx start hstart (g2 :: t2) 1
        ((0 + g % 2 ^ (min (bd + 2) 8) * 2 ^ (8 - bd - 0 * bd) % 256) % 256)
        (if first then bytes else bytes ++ [cur])
        (by omega)
        (by simp only [List.length_cons]; simp only [List.length_cons] at hle; omega)
        (by simp only [List.length_cons]; simp only [List.length_cons] at hbound; omega)
      rw [this]
      show _ = (false, packGroupAux bd 1 _ (g2 :: t2), _)
      have hcond : ((g2 :: t2) ≠ [] ∧ start + 1 + (g2 :: t2).length - 1 = lastIdx)
          ↔ (start + (g :: g2 :: t2).length - 1 = lastIdx) := by
        simp only [List.length_cons]
        constructor
        · intro hc; omega
        · intro hc; exact ⟨by simp, by omega⟩
      by_cases hc : (g2 :: t2) ≠ [] ∧ start + 1 + (g2 :: t2).length - 1 = lastIdx
      · rw [if_pos hc, if_pos (hcond.mp hc)]
        rfl
      · rw [if_neg hc, if_neg (fun hcc => hc (hcond.mpr hcc))]

theorem packFold_groups (bd ppb lastIdx : Nat) (hppb : 0 < ppb) :
    ∀ (n : Nat) (scan : List Nat), scan.length = n → ∀ (start cur : Nat)
      (bytes : List Nat), scan ≠ [] → start % ppb = 0 →
      start + scan.length - 1 = lastIdx →
      ((scan.enumFrom start).foldl (packStep bd ppb lastIdx)
        (false, cur, bytes)).2.2 =
        bytes ++ [cur] ++ (listChunks ppb scan).map (packGroup bd) := by
  intro n
  induction n using Nat.strong_induction_on with
  | _ n ih =>
    intro scan hn start cur bytes hne hstart hlast
    have hlen0 : 0 < scan.length := List.length_pos.mpr hne
    by_cases hshort : scan.length ≤ ppb
    · rw [packFold_group bd ppb lastIdx start hstart hppb scan false cur bytes hne
        hshort (by omega)]
      rw [if_pos (show start + scan.length - 1 = lastIdx from hlast)]
      rw [listChunks_short ppb hppb scan hne hshort]
      simp
    · push_neg at hshort
      have hsplit : scan.take ppb ++ scan.drop ppb = scan := List.take_append_drop ppb scan
      have htlen : (scan.take ppb).length = ppb := by
        rw [List.length_take]; omega
      have hdlen : (scan.drop ppb).length = scan.length - ppb := List.length_drop ppb scan
      have htake_ne : scan.take ppb ≠ [] := by
        intro hc
        have := congrArg List.length hc
        rw [htlen] at this
        simp at this
        omega
      have hdrop_ne : scan.drop ppb ≠ [] := by
        intro hc
        have := congrArg List.length hc
        rw [hdlen] at this
        simp at this
        omega
      have hEnum : scan.enumFrom start =
          (scan.take ppb).enumFrom start ++
            (scan.drop ppb).enumFrom (start + (scan.take ppb).length) := by
        conv_lhs => rw [← hsplit]
        exact enumFrom_append_lemma _ _ _
      rw [hEnum, List.foldl_append]
      rw [packFold_group bd ppb lastIdx start hstart hppb (scan.take ppb) false cur
        bytes htake_ne (by omega) (by rw [htlen]; omega)]
      rw [htlen]
      rw [if_neg (show ¬ (start + ppb - 1 = lastIdx) by omega)]
      have hmodrec : (start + ppb) % ppb = 0 := by
        simp [Nat.add_mod, hstart, Nat.mod_self]
      have hrec := ih (scan.length - ppb) (by omega) (scan.drop ppb) hdlen
        (start + ppb) (packGroup bd (scan.take ppb))
        ((if false then bytes else bytes ++ [cur]) ++ [])
        hdrop_ne hmodrec (by rw [hdlen]; omega)
      rw [hrec]
      have hchunks : listChunks ppb scan =
          scan.take ppb :: listChunks ppb (scan.drop ppb) := by
        cases scan with
        | nil => exact absurd rfl hne
        | cons a t => exact listChunks_cons ppb hppb a t
      rw [hchunks]
      simp [List.append_assoc]

theorem packIndexedScanline_eq (bd ppb : Nat) (hppb : 0 < ppb) (scan : List Nat) :
    packIndexedScanline bd ppb scan = (listChunks ppb scan).map (packGroup bd) := by
  cases hs : scan with
  | nil => rfl
  | cons a t =>
    rw [packIndexedScanline]
    have hne : a :: t ≠ [] := by simp
    have hlen0 : 0 < (a :: t).length := by simp
    show ((List.enumFrom 0 (a :: t)).foldl
      (packStep bd ppb ((a :: t).length - 1)) (true, 0, [])).2.2 = _
    by_cases hshort : (a :: t).length ≤ ppb
    · rw [packFold_group bd ppb ((a :: t).length - 1) 0 (Nat.zero_mod ppb) hppb
        (a :: t) true 0 [] hne hshort (by omega)]
      rw [if_pos (show 0 + (a :: t).length - 1 = (a :: t).length - 1 by omega)]
      rw [listChunks_short ppb hppb _ hne hshort]
      simp
    · push_neg at hshort
      have hsplit : (a :: t).take ppb ++ (a :: t).drop ppb = a :: t :=
        List.take_append_drop ppb (a :: t)
      have htlen : ((a :: t).take ppb).length = ppb := by
        rw [List.length_take]; omega
      have hdlen : ((a :: t).drop ppb).length = (a :: t).length - ppb :=
        List.length_drop ppb (a :: t)
      have htake_ne : (a :: t).take ppb ≠ [] := by
        intro hc
        have h0 : ((a :: t).take ppb).length = 0 := by rw [hc]; rfl
        rw [htlen] at h0
        omega
      have hdrop_ne : (a :: t).drop ppb ≠ [] := by
        intro hc
        have h0 : ((a :: t).drop ppb).length = 0 := by rw [hc]; rfl
        rw [hdlen] at h0
        simp only [List.length_cons] at h0 hshort
        omega
      have hEnum : (a :: t).enumFrom 0 =
          ((a :: t).take ppb).enumFrom 0 ++
            ((a :: t).drop ppb).enumFrom (0 + ((a :: t).take ppb).length) := by
        conv_lhs => rw [← hsplit]
        exact enumFrom_append_lemma _ _ _
      rw [hEnum, List.foldl_append]
      rw [packFold_group bd ppb ((a :: t).length - 1) 0 (Nat.zero_mod ppb) hppb
        ((a :: t).take ppb) true 0 [] htake_ne (by omega) (by rw [htlen]; omega)]
      rw [htlen]
      rw [if_neg (show ¬ (0 + ppb - 1 = (a :: t).length - 1) by
        simp only [List.length_cons] at hshort ⊢; omega)]
      rw [packFold_groups bd ppb ((a :: t).length - 1) hppb
        ((a :: t).length - ppb) ((a :: t).drop ppb) hdlen (0 + ppb)
        (packGroup bd ((a :: t).take ppb)) ((if true then [] else [] ++ [(0 : Nat)]) ++ [])
        hdrop_ne (by simp [Nat.add_mod, Nat.mod_self])
        (by rw [hdlen]; simp only [List.length_cons] at hshort ⊢; omega)]
      have hchunks : listChunks ppb (a :: t) =
          (a :: t).take ppb :: listChunks ppb ((a :: t).drop ppb) :=
        listChunks_cons ppb hppb a t
      rw [hchunks]
      simp [List.append_assoc]

end RustImages

namespace RustImages

/-! ### Value of a packed byte and its extraction -/

theorem packGroupAux_eq (bd ppb : Nat) (hbd8 : bd * ppb = 8) (hbd0 : 0 < bd) :
    ∀ (group : List Nat) (m cur : Nat), m + group.length ≤ ppb →
      (∀ g ∈ group, g < 2 ^ bd) → cur + 2 ^ (8 - bd * m) ≤ 2 ^ 8 →
      packGroupAux bd m cur group =
        cur + beDigits (2 ^ bd) group * 2 ^ (8 - bd * (m + group.length)) := by
  have hppb0 : 0 < ppb := by
    rcases Nat.eq_zero_or_pos ppb with h | h
    · rw [h, Nat.mul_zero] at hbd8; omega
    · exact h
  have hbd_le8 : bd ≤ 8 := by
    calc bd = bd * 1 := (Nat.mul_one bd).symm
      _ ≤ bd * ppb := Nat.mul_le_mul_left bd hppb0
      _ = 8 := hbd8
  intro group
  induction group with
  | nil =>
    intro m cur _ _ _
    simp [packGroupAux, beDigits]
  | cons g t ih =>
    intro m cur hlen hels hcur
    have hg : g < 2 ^ bd := hels g (List.mem_cons_self g t)
    have hlen' : m + t.length + 1 ≤ ppb := by simp at hlen; omega
    have hbdm1 : bd * (m + 1) ≤ 8 := by
      calc bd * (m + 1) ≤ bd * ppb := Nat.mul_le_mul_left bd (by omega)
        _ = 8 := hbd8
    have hbdm : bd * m ≤ 8 := by
      have h1 : bd * (m + 1) = bd * m + bd := by ring
      omega
    have hmask : g % 2 ^ (min (bd + 2) 8) = g := by
      apply Nat.mod_eq_of_lt
      exact lt_of_lt_of_le hg (Nat.pow_le_pow_right (by omega) (by omega))
    have hshift_eq : 8 - bd - m * bd = 8 - bd * (m + 1) := by
      have h1 : bd * (m + 1) = bd + m * bd := by ring
      omega
    have hexp_sum : bd + (8 - bd * (m + 1)) = 8 - bd * m := by
      have h1 : bd * (m + 1) = bd * m + bd := by ring
      omega
    have hshift_lt : g * 2 ^ (8 - bd * (m + 1)) < 2 ^ (8 - bd * m) := by
      calc g * 2 ^ (8 - bd * (m + 1)) < 2 ^ bd * 2 ^ (8 - bd * (m + 1)) :=
            mul_lt_mul_of_pos_right hg (Nat.pos_pow_of_pos _ (by omega))
        _ = 2 ^ (bd + (8 - bd * (m + 1))) := by rw [← pow_add]
        _ = 2 ^ (8 - bd * m) := by rw [hexp_sum]
    have hpow28 : 2 ^ (8 - bd * m) ≤ 2 ^ 8 :=
      Nat.pow_le_pow_right (by omega) (by omega)
    have hshift_mod : g * 2 ^ (8 - bd - m * bd) % 256 = g * 2 ^ (8 - bd * (m + 1)) := by
      rw [hshift_eq]
      exact Nat.mod_eq_of_lt (by omega)
    have hcur2 : cur + g * 2 ^ (8 - bd * (m + 1)) < 256 := by omega
    show packGroupAux bd (m + 1)
        ((cur + g % 2 ^ (min (bd + 2) 8) * 2 ^ (8 - bd - m * bd) % 256) % 256) t = _
    rw [hmask, hshift_mod, Nat.mod_eq_of_lt hcur2]
    have hbound2 : cur + g * 2 ^ (8 - bd * (m + 1)) + 2 ^ (8 - bd * (m + 1)) ≤ 2 ^ 8 := by
      have hmul : (g + 1) * 2 ^ (8 - bd * (m + 1)) ≤ 2 ^ bd * 2 ^ (8 - bd * (m + 1)) :=
        Nat.mul_le_mul_right _ (by omega)
      have hpow : 2 ^ bd * 2 ^ (8 - bd * (m + 1)) = 2 ^ (8 - bd * m) := by
        rw [← pow_add, hexp_sum]
      have hdistrib : (g + 1) * 2 ^ (8 - bd * (m + 1)) =
          g * 2 ^ (8 - bd * (m + 1)) + 2 ^ (8 - bd * (m + 1)) := by ring
      omega
    rw [ih (m + 1) _ (by omega)
      (fun x hx => hels x (List.mem_cons_of_mem g hx)) hbound2]
    show _ = cur + (g * (2 ^ bd) ^ t.length + beDigits (2 ^ bd) t) *
      2 ^ (8 - bd * (m + (g :: t).length))
    have hlc : (g :: t).length = t.length + 1 := by simp
    rw [hlc]
    have hmm : m + (t.length + 1) = m + 1 + t.length := by omega
    rw [hmm]
    have hpow2 : (2 ^ bd) ^ t.length = 2 ^ (bd * t.length) := by
      rw [← pow_mul]
    have hfull : bd * (m + 1 + t.length) ≤ 8 := by
      calc bd * (m + 1 + t.length) ≤ bd * ppb := Nat.mul_le_mul_left bd (by omega)
        _ = 8 := hbd8
    have hexp2 : bd * t.length + (8 - bd * (m + 1 + t.length)) = 8 - bd * (m + 1) := by
      have h1 : bd * (m + 1 + t.length) = bd * (m + 1) + bd * t.length := by ring
      omega
    have hterm : g * (2 ^ bd) ^ t.length * 2 ^ (8 - bd * (m + 1 + t.length)) =
        g * 2 ^ (8 - bd * (m + 1)) := by
      rw [hpow2, Nat.mul_assoc, ← pow_add, hexp2]
    have hdistrib2 : (g * (2 ^ bd) ^ t.length + beDigits (2 ^ bd) t) *
        2 ^ (8 - bd * (m + 1 + t.length)) =
        g * (2 ^ bd) ^ t.length * 2 ^ (8 - bd * (m + 1 + t.length)) +
          beDigits (2 ^ bd) t * 2 ^ (8 - bd * (m + 1 + t.length)) := by ring
    rw [hdistrib2, hterm]
    omega

theorem packGroup_eq (bd ppb : Nat) (hbd8 : bd * ppb = 8) (hbd0 : 0 < bd)
    (group : List Nat) (hlen : group.length ≤ ppb)
    (hels : ∀ g ∈ group, g < 2 ^ bd) :
    packGroup bd group = beDigits (2 ^ bd) group * 2 ^ (8 - bd * group.length) := by
  rw [packGroup,
    packGroupAux_eq bd ppb hbd8 hbd0 group 0 0 (by omega) hels (by norm_num)]
  simp

theorem filterMap_range_prefix {α : Type} (g : Nat → α) (len : Nat) :
    ∀ p : Nat, p ≤ len →
      (List.range p).filterMap (fun i => if i < len then some (g i) else none) =
        (List.range p).map g := by
  intro p
  induction p with
  | zero => intro _; rfl
  | succ q ih =>
    intro h
    rw [List.range_succ, List.filterMap_append, List.map_append, ih (by omega)]
    have hq : q < len := by omega
    simp [hq]

theorem filterMap_range_total {α : Type} (g : Nat → α) :
    ∀ (ppb len : Nat), len ≤ ppb →
      (List.range ppb).filterMap (fun i => if i < len then some (g i) else none) =
        (List.range len).map g := by
  intro ppb
  induction ppb with
  | zero =>
    intro len h
    have : len = 0 := by omega
    subst this
    rfl
  | succ p ih =>
    intro len h
    by_cases hl : len ≤ p
    · rw [List.range_succ, List.filterMap_append, ih len hl]
      have hp : ¬ (p < len) := by omega
      simp [hp]
    · have hlen : len = p + 1 := by omega
      subst hlen
      exact filterMap_range_prefix g (p + 1) (p + 1) (Nat.le_refl _)

theorem range_map_getD {α : Type} (d : α) :
    ∀ l : List α, (List.range l.length).map (fun i => l.getD i d) = l := by
  intro l
  induction l with
  | nil => rfl
  | cons a t ih =>
    rw [List.length_cons, List.range_succ_eq_map, List.map_cons]
    have hmap : (List.map Nat.succ (List.range t.length)).map
        (fun i => (a :: t).getD i d) = (List.range t.length).map
        (fun i => t.getD i d) := by
      rw [List.map_map]
      rfl
    rw [hmap, ih]
    rfl

end RustImages

namespace RustImages

theorem indicesFromByte_unpack (bd ppb : Nat) (hbd8 : bd * ppb = 8) (hbd0 : 0 < bd)
    (w ndx : Nat) (group : List Nat) (hels : ∀ g ∈ group, g < 2 ^ bd)
    (hglen : group.length = min ppb (w - ppb * ndx)) (hpos : ppb * ndx < w) :
    indicesFromByte bd ppb w ndx (packGroup bd group) = group := by
  have hppb0 : 0 < ppb := by
    rcases Nat.eq_zero_or_pos ppb with h | h
    · rw [h, Nat.mul_zero] at hbd8; omega
    · exact h
  have hlen_le : group.length ≤ ppb := by omega
  have hglen_pos : 0 < group.length := by omega
  rw [indicesFromByte]
  have hcong : ∀ i0 ∈ List.range ppb,
      (fun i0 =>
        if ppb * ndx + (i0 + 1) > w then none
        else some (packGroup bd group / 2 ^ (8 - bd * (i0 + 1)) % 2 ^ bd)) i0 =
      (fun i0 => if i0 < group.length then some (group.getD i0 0) else none) i0 := by
    intro i0 hi0
    have hi0p : i0 < ppb := List.mem_range.mp hi0
    show (if ppb * ndx + (i0 + 1) > w then none
        else some (packGroup bd group / 2 ^ (8 - bd * (i0 + 1)) % 2 ^ bd)) =
      (if i0 < group.length then some (group.getD i0 0) else none)
    by_cases hin : i0 < group.length
    · have hcond : ¬ (ppb * ndx + (i0 + 1) > w) := by omega
      rw [if_neg hcond, if_pos hin]
      congr 1
      have hB1 : 1 < 2 ^ bd := by
        calc 1 < 2 ^ 1 := by norm_num
          _ ≤ 2 ^ bd := Nat.pow_le_pow_right (by omega) (by omega)
      have hbd_le8 : bd * group.length ≤ 8 := by
        calc bd * group.length ≤ bd * ppb := Nat.mul_le_mul_left bd hlen_le
          _ = 8 := hbd8
      have hbdi1 : bd * (i0 + 1) ≤ bd * group.length :=
        Nat.mul_le_mul_left bd (by omega)
      rw [packGroup_eq bd ppb hbd8 hbd0 group hlen_le hels]
      have hsplitpow : 2 ^ (8 - bd * (i0 + 1)) =
          2 ^ (8 - bd * group.length) *
            2 ^ (bd * group.length - bd * (i0 + 1)) := by
        rw [← pow_add]
        congr 1
        omega
      have hrearr : beDigits (2 ^ bd) group * 2 ^ (8 - bd * group.length) =
          2 ^ (8 - bd * group.length) * beDigits (2 ^ bd) group := by ring
      rw [hrearr, hsplitpow,
        Nat.mul_div_mul_left _ _ (Nat.pos_pow_of_pos _ (by omega))]
      have hexp3 : bd * group.length - bd * (i0 + 1) =
          bd * (group.length - 1 - i0) := by
        have h1 : bd * (i0 + 1) + bd * (group.length - 1 - i0) =
            bd * group.length := by
          rw [← Nat.mul_add]
          congr 1
          omega
        omega
      rw [hexp3, pow_mul]
      exact beDigits_extract (2 ^ bd) (by omega) group hels i0 hin
    · have hcond : ppb * ndx + (i0 + 1) > w := by omega
      rw [if_pos hcond, if_neg hin]
  rw [List.filterMap_congr hcong,
    filterMap_range_total (fun i => group.getD i 0) ppb group.length hlen_le,
    range_map_getD]

/-- Positions produced by enumFrom are at least the start index. -/
theorem enumFrom_fst_ge {α : Type} :
    ∀ (l : List α) (n : Nat) (p : Nat × α), p ∈ l.enumFrom n → n ≤ p.1 := by
  intro l
  induction l with
  | nil => intro n p hp; simp at hp
  | cons a t ih =>
    intro n p hp
    rw [List.enumFrom_cons] at hp
    rcases List.mem_cons.mp hp with h | h
    · rw [h]
    · have := ih (n + 1) p h
      omega

theorem unpackChunks_fold (bd ppb w slwTemp : Nat) :
    ∀ (chunks : List (List Nat)) (start : Nat),
      (∀ j chunk, chunks.get? j = some chunk →
        start + j < slwTemp ∧
        indicesFromByte bd ppb w (start + j) (packGroup bd chunk) = chunk) →
      (((chunks.map (packGroup bd)).enumFrom start).map
        (fun p => if p.1 < slwTemp then indicesFromByte bd ppb w p.1 p.2
          else [])).flatten = chunks.flatten := by
  intro chunks
  induction chunks with
  | nil => intro start _; rfl
  | cons c t ih =>
    intro start h
    have h0 := h 0 c rfl
    rw [List.map_cons, List.enumFrom_cons, List.map_cons, List.flatten_cons]
    have hlt : start < slwTemp := by have := h0.1; omega
    rw [show ((start, packGroup bd c) : Nat × Nat).1 = start from rfl]
    rw [if_pos hlt]
    have hunp : indicesFromByte bd ppb w start (packGroup bd c) = c := by
      have := h0.2
      rwa [Nat.add_zero] at this
    rw [hunp]
    rw [ih (start + 1) ?_, List.flatten_cons]
    intro j chunk hj
    have hj1 := h (j + 1) chunk (by simpa using hj)
    constructor
    · omega
    · have := hj1.2
      rwa [show start + (j + 1) = start + 1 + j by omega] at this

theorem decodeIndexedScanline_unpack (bd ppb w : Nat) (hbd8 : bd * ppb = 8)
    (hbd0 : 0 < bd) (row : List Nat) (hrowlen : row.length = w) (hw : 0 < w)
    (hels : ∀ g ∈ row, g < 2 ^ bd) (pad : List Nat)
    (hplen : (packIndexedScanline bd ppb row).length = (w + ppb - 1) / ppb) :
    decodeIndexedScanline bd ppb w ((w + ppb - 1) / ppb)
      (packIndexedScanline bd ppb row ++ pad) = row := by
  have hppb0 : 0 < ppb := by
    rcases Nat.eq_zero_or_pos ppb with h | h
    · rw [h, Nat.mul_zero] at hbd8; omega
    · exact h
  have hpack := packIndexedScanline_eq bd ppb hppb0 row
  have hcount : (listChunks ppb row).length = (w + ppb - 1) / ppb := by
    rw [listChunks_length ppb hppb0, hrowlen]
  rw [decodeIndexedScanline, hpack]
  show ((((listChunks ppb row).map (packGroup bd) ++ pad).enumFrom 0).map _).flatten = _
  rw [enumFrom_append_lemma, List.map_append, List.flatten_append]
  have hmaplen : ((listChunks ppb row).map (packGroup bd)).length =
      (w + ppb - 1) / ppb := by
    rw [List.length_map, hcount]
  have hpadpart : ((pad.enumFrom
      (0 + ((listChunks ppb row).map (packGroup bd)).length)).map
      (fun p => if p.1 < (w + ppb - 1) / ppb
        then indicesFromByte bd ppb w p.1 p.2 else [])).flatten = [] := by
    apply List.flatten_eq_nil_iff.mpr
    intro l hl
    rcases List.mem_map.mp hl with ⟨p, hp, rfl⟩
    have hge := enumFrom_fst_ge pad _ p hp
    rw [hmaplen] at hge
    rw [if_neg (by omega)]
  rw [hpadpart, List.append_nil]
  have hfacts : ∀ j chunk, (listChunks ppb row).get? j = some chunk →
      0 + j < (w + ppb - 1) / ppb ∧
      indicesFromByte bd ppb w (0 + j) (packGroup bd chunk) = chunk := by
    intro j chunk hj
    obtain ⟨hcdef, hjlt⟩ := listChunks_get ppb hppb0 j row chunk hj
    have hjcount : j < (w + ppb - 1) / ppb := by
      have hlt : j < (listChunks ppb row).length := by
        by_contra hge
        push_neg at hge
        rw [List.get?_eq_none.mpr hge] at hj
        exact Option.noConfusion hj
      rw [hcount] at hlt
      exact hlt
    refine ⟨by omega, ?_⟩
    rw [Nat.zero_add]
    apply indicesFromByte_unpack bd ppb hbd8 hbd0 w j chunk
    · intro g hg
      apply hels
      rw [hcdef] at hg
      exact List.mem_of_mem_drop (List.mem_of_mem_take hg)
    · rw [hcdef, List.length_take, List.length_drop, hrowlen]
    · rw [hrowlen] at hjlt
      omega
  exact (unpackChunks_fold bd ppb w ((w + ppb - 1) / ppb)
    (listChunks ppb row) 0 hfacts).trans (flatten_listChunks ppb hppb0 row)

end RustImages

namespace RustImages

theorem packIndexedScanline_length (bd ppb : Nat) (hppb : 0 < ppb)
    (scan : List Nat) :
    (packIndexedScanline bd ppb scan).length = (scan.length + ppb - 1) / ppb := by
  rw [packIndexedScanline_eq bd ppb hppb, List.length_map,
    listChunks_length ppb hppb]

/-! ### Direct-color scanline decode against its encode -/

theorem directStep_fold (bpp absW : Nat) :
    ∀ (cbs : List (List Nat)) (line : List ARGB),
      (∀ c ∈ cbs, c.length = bpp) → line.length + cbs.length ≤ absW →
      cbs.foldl (directStep bpp absW) line =
        line ++ cbs.map (directColorOf bpp) := by
  intro cbs
  induction cbs with
  | nil => intro line _ _; simp
  | cons c t ih =>
    intro line h hlen
    rw [List.foldl_cons]
    have hc : c.length = bpp := h c (List.mem_cons_self c t)
    have hlen' : line.length + (t.length + 1) ≤ absW := by simpa using hlen
    have hstep : directStep bpp absW line c = line ++ [directColorOf bpp c] := by
      rw [directStep, if_pos ⟨hc, by omega⟩]
    rw [hstep, ih _ (fun x hx => h x (List.mem_cons_of_mem c hx))
      (by simp [List.length_append]; omega)]
    simp

theorem directStep_skip (bpp absW : Nat) :
    ∀ (cbs : List (List Nat)) (line : List ARGB), absW ≤ line.length →
      cbs.foldl (directStep bpp absW) line = line := by
  intro cbs
  induction cbs with
  | nil => intro line _; rfl
  | cons c t ih =>
    intro line h
    rw [List.foldl_cons, directStep, if_neg (fun hc => by omega)]
    exact ih line h

theorem colorToBytes_length (bpp : Nat) (hbpp : bpp ≤ 4) (c : ARGB) :
    (colorToBytes bpp c).length = bpp := by
  rw [colorToBytes, u32ToLeBytes]
  rw [List.length_take]
  simp
  omega

theorem colorToBytes_eq3 (c : ARGB) (hr : c.red < 256) (hg : c.green < 256)
    (hb : c.blue < 256) (ha : c.alpha < 256) :
    colorToBytes 3 c = [c.blue, c.green, c.red] := by
  rw [colorToBytes]
  show (u32ToLeBytes
    (c.alpha * 2 ^ 24 + c.red * 2 ^ 16 + c.green * 2 ^ 8 + c.blue)).take 3 = _
  rw [u32ToLeBytes]
  show [(c.alpha * 2 ^ 24 + c.red * 2 ^ 16 + c.green * 2 ^ 8 + c.blue) % 256,
    (c.alpha * 2 ^ 24 + c.red * 2 ^ 16 + c.green * 2 ^ 8 + c.blue) / 2 ^ 8 % 256,
    (c.alpha * 2 ^ 24 + c.red * 2 ^ 16 + c.green * 2 ^ 8 + c.blue) / 2 ^ 16 % 256] =
    [c.blue, c.green, c.red]
  have h1 : (c.alpha * 2 ^ 24 + c.red * 2 ^ 16 + c.green * 2 ^ 8 + c.blue) % 256 =
      c.blue := by omega
  have h2 : (c.alpha * 2 ^ 24 + c.red * 2 ^ 16 + c.green * 2 ^ 8 + c.blue) / 2 ^ 8 %
      256 = c.green := by omega
  have h3 : (c.alpha * 2 ^ 24 + c.red * 2 ^ 16 + c.green * 2 ^ 8 + c.blue) / 2 ^ 16 %
      256 = c.red := by omega
  rw [h1, h2, h3]

theorem colorToBytes_eq4 (c : ARGB) (hr : c.red < 256) (hg : c.green < 256)
    (hb : c.blue < 256) (ha : c.alpha < 256) :
    colorToBytes 4 c = [c.blue, c.green, c.red, c.alpha] := by
  rw [colorToBytes]
  show (u32ToLeBytes
    (c.alpha * 2 ^ 24 + c.red * 2 ^ 16 + c.green * 2 ^ 8 + c.blue)).take 4 = _
  rw [u32ToLeBytes]
  show [(c.alpha * 2 ^ 24 + c.red * 2 ^ 16 + c.green * 2 ^ 8 + c.blue) % 256,
    (c.alpha * 2 ^ 24 + c.red * 2 ^ 16 + c.green * 2 ^ 8 + c.blue) / 2 ^ 8 % 256,
    (c.alpha * 2 ^ 24 + c.red * 2 ^ 16 + c.green * 2 ^ 8 + c.blue) / 2 ^ 16 % 256,
    (c.alpha * 2 ^ 24 + c.red * 2 ^ 16 + c.green * 2 ^ 8 + c.blue) / 2 ^ 24 % 256] =
    [c.blue, c.green, c.red, c.alpha]
  have h1 : (c.alpha * 2 ^ 24 + c.red * 2 ^ 16 + c.green * 2 ^ 8 + c.blue) % 256 =
      c.blue := by omega
  have h2 : (c.alpha * 2 ^ 24 + c.red * 2 ^ 16 + c.green * 2 ^ 8 + c.blue) / 2 ^ 8 %
      256 = c.green := by omega
  have h3 : (c.alpha * 2 ^ 24 + c.red * 2 ^ 16 + c.green * 2 ^ 8 + c.blue) / 2 ^ 16 %
      256 = c.red := by omega
  have h4 : (c.alpha * 2 ^ 24 + c.red * 2 ^ 16 + c.green * 2 ^ 8 + c.blue) / 2 ^ 24 %
      256 = c.alpha := by omega
  rw [h1, h2, h3, h4]

theorem decodeDirectScanline_unpack (bpp w : Nat) (hbpp : bpp = 3 ∨ bpp = 4)
    (row : List ARGB) (hrow : row.length = w)
    (hch : ∀ c ∈ row, c.red < 256 ∧ c.green < 256 ∧ c.blue < 256 ∧ c.alpha < 256)
    (halpha : bpp = 3 → ∀ c ∈ row, c.alpha = 255)
    (pad : List Nat) :
    decodeDirectScanline bpp w ((row.map (colorToBytes bpp)).flatten ++ pad) =
      row := by
  have hbpp0 : 0 < bpp := by rcases hbpp with h | h <;> omega
  have hbpp4 : bpp ≤ 4 := by rcases hbpp with h | h <;> omega
  have huniform : ∀ l ∈ row.map (colorToBytes bpp), l.length = bpp := by
    intro l hl
    rcases List.mem_map.mp hl with ⟨c, _, rfl⟩
    exact colorToBytes_length bpp hbpp4 c
  rw [decodeDirectScanline,
    listChunks_flatten_append bpp hbpp0 (row.map (colorToBytes bpp)) pad huniform,
    List.foldl_append,
    directStep_fold bpp w (row.map (colorToBytes bpp)) [] huniform
      (by simp [hrow])]
  have hid : (row.map (colorToBytes bpp)).map (directColorOf bpp) = row := by
    rw [List.map_map]
    have hpt : ∀ c ∈ row, directColorOf bpp (colorToBytes bpp c) = c := by
      intro c hc
      obtain ⟨h1, h2, h3, h4⟩ := hch c hc
      rcases hbpp with h | h
      · subst h
        have ha255 := halpha rfl c hc
        rw [colorToBytes_eq3 c h1 h2 h3 h4]
        obtain ⟨r, g, b, a⟩ := c
        simp only [ARGB.mk.injEq] at ha255 ⊢
        simp [directColorOf]
        omega
      · subst h
        rw [colorToBytes_eq4 c h1 h2 h3 h4]
        obtain ⟨r, g, b, a⟩ := c
        simp [directColorOf]
    calc row.map (directColorOf bpp ∘ colorToBytes bpp)
        = row.map id := List.map_congr_left (fun c hc => hpt c hc)
      _ = row := List.map_id row
  rw [List.nil_append, hid,
    directStep_skip bpp w (listChunks bpp pad) row (by omega)]

end RustImages

namespace RustImages

/-! ### Reading back serialized header fields -/

theorem reduceBitSlice_u16ToLeBytes (n : Nat) (h : n < 2 ^ 16) :
    reduceBitSlice (u16ToLeBytes n) = n := by
  rw [u16ToLeBytes, reduceBitSlice]
  show n % 256 + 256 * (n / 2 ^ 8 % 256 + 256 * 0) = n
  omega

theorem reduceBitSlice_u32ToLeBytes (n : Nat) (h : n < 2 ^ 32) :
    reduceBitSlice (u32ToLeBytes n) = n := by
  rw [u32ToLeBytes, reduceBitSlice]
  show n % 256 + 256 * (n / 2 ^ 8 % 256 + 256 *
    (n / 2 ^ 16 % 256 + 256 * (n / 2 ^ 24 % 256 + 256 * 0))) = n
  omega

theorem reduceBitSliceI32_i32ToLeBytes (z : Int) (hlo : -(2 ^ 31 : Int) ≤ z)
    (hhi : z < 2 ^ 31) : reduceBitSliceI32 (i32ToLeBytes z) = z := by
  rw [i32ToLeBytes, u32ToLeBytes]
  have hWlt : (z % (2 ^ 32 : Int)).toNat < 2 ^ 32 := by
    have h1 : z % (2 ^ 32 : Int) < 2 ^ 32 := Int.emod_lt_of_pos z (by norm_num)
    have h2 : 0 ≤ z % (2 ^ 32 : Int) := Int.emod_nonneg z (by norm_num)
    omega
  have hu : reduceBitSlice [(z % (2 ^ 32 : Int)).toNat % 256,
      (z % (2 ^ 32 : Int)).toNat / 2 ^ 8 % 256,
      (z % (2 ^ 32 : Int)).toNat / 2 ^ 16 % 256,
      (z % (2 ^ 32 : Int)).toNat / 2 ^ 24 % 256] = (z % (2 ^ 32 : Int)).toNat := by
    rw [reduceBitSlice]
    show (z % (2 ^ 32 : Int)).toNat % 256 + 256 *
      ((z % (2 ^ 32 : Int)).toNat / 2 ^ 8 % 256 + 256 *
        ((z % (2 ^ 32 : Int)).toNat / 2 ^ 16 % 256 + 256 *
          ((z % (2 ^ 32 : Int)).toNat / 2 ^ 24 % 256 + 256 * 0))) =
      (z % (2 ^ 32 : Int)).toNat
    omega
  show (if reduceBitSlice [(z % (2 ^ 32 : Int)).toNat % 256,
      (z % (2 ^ 32 : Int)).toNat / 2 ^ 8 % 256,
      (z % (2 ^ 32 : Int)).toNat / 2 ^ 16 % 256,
      (z % (2 ^ 32 : Int)).toNat / 2 ^ 24 % 256] < 2 ^ 31
    then (reduceBitSlice [(z % (2 ^ 32 : Int)).toNat % 256,
      (z % (2 ^ 32 : Int)).toNat / 2 ^ 8 % 256,
      (z % (2 ^ 32 : Int)).toNat / 2 ^ 16 % 256,
      (z % (2 ^ 32 : Int)).toNat / 2 ^ 24 % 256] : Int)
    else (reduceBitSlice [(z % (2 ^ 32 : Int)).toNat % 256,
      (z % (2 ^ 32 : Int)).toNat / 2 ^ 8 % 256,
      (z % (2 ^ 32 : Int)).toNat / 2 ^ 16 % 256,
      (z % (2 ^ 32 : Int)).toNat / 2 ^ 24 % 256] : Int) - 2 ^ 32) = z
  rw [hu]
  split <;> omega


/-- `bitmapBytes` with the append chain re-associated to the right, so
that reads at fixed offsets reduce segment by segment. -/
theorem bitmapBytes_assoc (bm : Bitmap) :
    bitmapBytes bm =
    u16ToLeBytes bm.header.signature ++ (u32ToLeBytes bm.header.file_size ++
      (u32ToLeBytes bm.header.reserved ++ (u32ToLeBytes bm.header.data_offset ++
      (u32ToLeBytes bm.info_header.size ++ (i32ToLeBytes bm.info_header.width ++
      (i32ToLeBytes bm.info_header.height ++ (u16ToLeBytes bm.info_header.planes ++
      (u16ToLeBytes bm.info_header.bit_depth ++ (u32ToLeBytes bm.info_header.compression ++
      (u32ToLeBytes bm.info_header.image_size ++ (i32ToLeBytes bm.info_header.x_pixels_per_meter ++
      (i32ToLeBytes bm.info_header.y_pixels_per_meter ++ (u32ToLeBytes bm.info_header.colors_used ++
      (u32ToLeBytes bm.info_header.important_colors ++
      (colorTableBytes bm.color_table.colors ++ pixelDataBytes bm))))))))))))))) := by
  unfold bitmapBytes
  simp [List.append_assoc]

/-- The 54 header bytes of a serialized bitmap parse back to the same
header and info-header fields, given that each field is in the range of
its machine type. -/
theorem parse_bitmapBytes (bm : Bitmap)
    (hsig : bm.header.signature < 2 ^ 16) (hfs : bm.header.file_size < 2 ^ 32)
    (hrsv : bm.header.reserved < 2 ^ 32) (hdo : bm.header.data_offset < 2 ^ 32)
    (hsz : bm.info_header.size < 2 ^ 32)
    (hwlo : -(2 ^ 31 : Int) ≤ bm.info_header.width)
    (hwhi : bm.info_header.width < 2 ^ 31)
    (hhlo : -(2 ^ 31 : Int) ≤ bm.info_header.height)
    (hhhi : bm.info_header.height < 2 ^ 31)
    (hpl : bm.info_header.planes < 2 ^ 16)
    (hbd : bm.info_header.bit_depth < 2 ^ 16)
    (hcp : bm.info_header.compression < 2 ^ 32)
    (his : bm.info_header.image_size < 2 ^ 32)
    (hxlo : -(2 ^ 31 : Int) ≤ bm.info_header.x_pixels_per_meter)
    (hxhi : bm.info_header.x_pixels_per_meter < 2 ^ 31)
    (hylo : -(2 ^ 31 : Int) ≤ bm.info_header.y_pixels_per_meter)
    (hyhi : bm.info_header.y_pixels_per_meter < 2 ^ 31)
    (hcu : bm.info_header.colors_used < 2 ^ 32)
    (hic : bm.info_header.important_colors < 2 ^ 32) :
    parseHeader (bitmapBytes bm) = bm.header ∧
      parseInfoHeader (bitmapBytes bm) = bm.info_header := by
  have r0 : readU16 (bitmapBytes bm) 0 = bm.header.signature := by
    have e : bytesAt (bitmapBytes bm) 0 2 = u16ToLeBytes bm.header.signature := by
      rw [bytesAt, bitmapBytes_assoc]; rfl
    rw [readU16, e, reduceBitSlice_u16ToLeBytes _ hsig]
  have r2 : readU32 (bitmapBytes bm) 2 = bm.header.file_size := by
    have e : bytesAt (bitmapBytes bm) 2 4 = u32ToLeBytes bm.header.file_size := by
      rw [bytesAt, bitmapBytes_assoc]; rfl
    rw [readU32, e, reduceBitSlice_u32ToLeBytes _ hfs]
  have r6 : readU32 (bitmapBytes bm) 6 = bm.header.reserved := by
    have e : bytesAt (bitmapBytes bm) 6 4 = u32ToLeBytes bm.header.reserved := by
      rw [bytesAt, bitmapBytes_assoc]; rfl
    rw [readU32, e, reduceBitSlice_u32ToLeBytes _ hrsv]
  have r10 : readU32 (bitmapBytes bm) 10 = bm.header.data_offset := by
    have e : bytesAt (bitmapBytes bm) 10 4 = u32ToLeBytes bm.header.data_offset := by
      rw [bytesAt, bitmapBytes_assoc]; rfl
    rw [readU32, e, reduceBitSlice_u32ToLeBytes _ hdo]
  have r14 : readU32 (bitmapBytes bm) 14 = bm.info_header.size := by
    have e : bytesAt (bitmapBytes bm) 14 4 = u32ToLeBytes bm.info_header.size := by
      rw [bytesAt, bitmapBytes_assoc]; rfl
    rw [readU32, e, reduceBitSlice_u32ToLeBytes _ hsz]
  have r18 : readI32 (bitmapBytes bm) 18 = bm.info_header.width := by
    have e : bytesAt (bitmapBytes bm) 18 4 = i32ToLeBytes bm.info_header.width := by
      rw [bytesAt, bitmapBytes_assoc]; rfl
    rw [readI32, e, reduceBitSliceI32_i32ToLeBytes _ hwlo hwhi]
  have r22 : readI32 (bitmapBytes bm) 22 = bm.info_header.height := by
    have e : bytesAt (bitmapBytes bm) 22 4 = i32ToLeBytes bm.info_header.height := by
      rw [bytesAt, bitmapBytes_assoc]; rfl
    rw [readI32, e, reduceBitSliceI32_i32ToLeBytes _ hhlo hhhi]
  have r26 : readU16 (bitmapBytes bm) 26 = bm.info_header.planes := by
    have e : bytesAt (bitmapBytes bm) 26 2 = u16ToLeBytes bm.info_header.planes := by
      rw [bytesAt, bitmapBytes_assoc]; rfl
    rw [readU16, e, reduceBitSlice_u16ToLeBytes _ hpl]
  have r28 : readU16 (bitmapBytes bm) 28 = bm.info_header.bit_depth := by
    have e : bytesAt (bitmapBytes bm) 28 2 = u16ToLeBytes bm.info_header.bit_depth := by
      rw [bytesAt, bitmapBytes_assoc]; rfl
    rw [readU16, e, reduceBitSlice_u16ToLeBytes _ hbd]
  have r30 : readU32 (bitmapBytes bm) 30 = bm.info_header.compression := by
    have e : bytesAt (bitmapBytes bm) 30 4 = u32ToLeBytes bm.info_header.compression := by
      rw [bytesAt, bitmapBytes_assoc]; rfl
    rw [readU32, e, reduceBitSlice_u32ToLeBytes _ hcp]
  have r34 : readU32 (bitmapBytes bm) 34 = bm.info_header.image_size := by
    have e : bytesAt (bitmapBytes bm) 34 4 = u32ToLeBytes bm.info_header.image_size := by
      rw [bytesAt, bitmapBytes_assoc]; rfl
    rw [readU32, e, reduceBitSlice_u32ToLeBytes _ his]
  have r38 : readI32 (bitmapBytes bm) 38 = bm.info_header.x_pixels_per_meter := by
    have e : bytesAt (bitmapBytes bm) 38 4 =
        i32ToLeBytes bm.info_header.x_pixels_per_meter := by
      rw [bytesAt, bitmapBytes_assoc]; rfl
    rw [readI32, e, reduceBitSliceI32_i32ToLeBytes _ hxlo hxhi]
  have r42 : readI32 (bitmapBytes bm) 42 = bm.info_header.y_pixels_per_meter := by
    have e : bytesAt (bitmapBytes bm) 42 4 =
        i32ToLeBytes bm.info_header.y_pixels_per_meter := by
      rw [bytesAt, bitmapBytes_assoc]; rfl
    rw [readI32, e, reduceBitSliceI32_i32ToLeBytes _ hylo hyhi]
  have r46 : readU32 (bitmapBytes bm) 46 = bm.info_header.colors_used := by
    have e : bytesAt (bitmapBytes bm) 46 4 = u32ToLeBytes bm.info_header.colors_used := by
      rw [bytesAt, bitmapBytes_assoc]; rfl
    rw [readU32, e, reduceBitSlice_u32ToLeBytes _ hcu]
  have r50 : readU32 (bitmapBytes bm) 50 = bm.info_header.important_colors := by
    have e : bytesAt (bitmapBytes bm) 50 4 =
        u32ToLeBytes bm.info_header.important_colors := by
      rw [bytesAt, bitmapBytes_assoc]; rfl
    rw [readU32, e, reduceBitSlice_u32ToLeBytes _ hic]
  constructor
  · rw [parseHeader, r0, r2, r6, r10]
  · rw [parseInfoHeader, r14, r18, r22, r26, r28, r30, r34, r38, r42, r46, r50]

end RustImages

namespace RustImages

/-! ### Color-table and region decomposition of the encoded buffer -/

theorem colorTableBytes_length (cols : List ARGB) :
    (colorTableBytes cols).length = 4 * cols.length := by
  induction cols with
  | nil => rfl
  | cons c t ih =>
    show (u32ToLeBytes (c.asU32 false) ++ colorTableBytes t).length = _
    simp only [List.length_append, ih, u32ToLeBytes, List.length_cons,
      List.length_nil, List.length_cons]
    omega

theorem paletteColor_u32 (c : ARGB) (hr : c.red < 256) (hg : c.green < 256)
    (hb : c.blue < 256) (ha : c.alpha < 256) :
    paletteColor (u32ToLeBytes (c.asU32 false)) = c := by
  obtain ⟨r, g, b, a⟩ := c
  simp only at hr hg hb ha
  show paletteColor (u32ToLeBytes (a * 2 ^ 24 + r * 2 ^ 16 + g * 2 ^ 8 + b)) = _
  rw [u32ToLeBytes, paletteColor]
  simp only [List.getD]
  show ARGB.mk ((a * 2 ^ 24 + r * 2 ^ 16 + g * 2 ^ 8 + b) / 2 ^ 16 % 256)
      ((a * 2 ^ 24 + r * 2 ^ 16 + g * 2 ^ 8 + b) / 2 ^ 8 % 256)
      ((a * 2 ^ 24 + r * 2 ^ 16 + g * 2 ^ 8 + b) % 256)
      ((a * 2 ^ 24 + r * 2 ^ 16 + g * 2 ^ 8 + b) / 2 ^ 24 % 256) = ARGB.mk r g b a
  simp only [ARGB.mk.injEq]
  refine ⟨by omega, by omega, by omega, by omega⟩

theorem parseColorTable_colorTableBytes (cols : List ARGB)
    (hch : ∀ c ∈ cols, c.red < 256 ∧ c.green < 256 ∧ c.blue < 256 ∧
      c.alpha < 256) :
    parseColorTable (colorTableBytes cols) = cols := by
  rw [parseColorTable, colorTableBytes,
    listChunks_flatten 4 (by omega) _ (by
      intro l hl
      rcases List.mem_map.mp hl with ⟨c, _, rfl⟩
      rfl),
    List.map_map]
  calc cols.map (paletteColor ∘ fun c => u32ToLeBytes (c.asU32 false))
      = cols.map id := List.map_congr_left (fun c hc => by
        obtain ⟨h1, h2, h3, h4⟩ := hch c hc
        exact paletteColor_u32 c h1 h2 h3 h4)
    _ = cols := List.map_id cols

theorem bitmapBytes_length (bm : Bitmap) :
    (bitmapBytes bm).length =
      54 + (colorTableBytes bm.color_table.colors).length +
        (pixelDataBytes bm).length := by
  rw [bitmapBytes_assoc]
  simp only [List.length_append, u16ToLeBytes, u32ToLeBytes, i32ToLeBytes,
    List.length_cons, List.length_nil]
  omega

theorem bitmapBytes_drop54 (bm : Bitmap) :
    (bitmapBytes bm).drop 54 =
      colorTableBytes bm.color_table.colors ++ pixelDataBytes bm := by
  rw [bitmapBytes_assoc]; rfl

theorem bytesAt_colorTable (bm : Bitmap) :
    bytesAt (bitmapBytes bm) 54 (4 * bm.color_table.colors.length) =
      colorTableBytes bm.color_table.colors := by
  rw [bytesAt, bitmapBytes_drop54, ← colorTableBytes_length]
  exact List.take_left _ _

theorem bitmapBytes_dropData (bm : Bitmap)
    (h : bm.header.data_offset = 54 + 4 * bm.color_table.colors.length) :
    (bitmapBytes bm).drop bm.header.data_offset = pixelDataBytes bm := by
  have hsplit : (bitmapBytes bm).drop bm.header.data_offset =
      ((bitmapBytes bm).drop 54).drop (4 * bm.color_table.colors.length) := by
    rw [List.drop_drop, h, Nat.add_comm]
  rw [hsplit, bitmapBytes_drop54, ← colorTableBytes_length]
  exact List.drop_left _ _

/-- When `k` divides the length evenly, every chunk is full. -/
theorem listChunks_uniform {α : Type} (k : Nat) (hk : 0 < k) :
    ∀ (m : Nat) (l : List α), l.length = k * m →
      ∀ c ∈ listChunks k l, c.length = k := by
  intro m
  induction m with
  | zero =>
    intro l hlen c hc
    have : l = [] := List.length_eq_zero.mp (by omega)
    subst this
    simp [listChunks_nil] at hc
  | succ n ih =>
    intro l hlen c hc
    have hl0 : l ≠ [] := by
      intro h
      subst h
      simp at hlen
      omega
    obtain ⟨a, t, rfl⟩ := List.exists_cons_of_ne_nil hl0
    rw [listChunks_cons k hk a t] at hc
    rcases List.mem_cons.mp hc with h | h
    · subst h
      rw [List.length_take]
      have : k * (n + 1) = k * n + k := by ring
      omega
    · apply ih ((a :: t).drop k) _ c h
      rw [List.length_drop]
      have : k * (n + 1) = k * n + k := by ring
      omega

/-- Elements of a chunk are elements of the original list. -/
theorem listChunks_mem {α : Type} (k : Nat) (hk : 0 < k) (l : List α)
    (c : List α) (hc : c ∈ listChunks k l) (x : α) (hx : x ∈ c) : x ∈ l := by
  have := flatten_listChunks k hk l
  rw [← this]
  exact List.mem_flatten.mpr ⟨c, hc, hx⟩

theorem decodeIndexedScanline_nil (bd ppb w slwTemp : Nat) :
    decodeIndexedScanline bd ppb w slwTemp [] = [] := rfl

theorem decodeDirectScanline_nil (bpp w : Nat) :
    decodeDirectScanline bpp w [] = [] := rfl

end RustImages

namespace RustImages

/-- Uniform-length lists flatten to a predictable length. -/
theorem flatten_length_uniform {α : Type} (k : Nat) :
    ∀ ls : List (List α), (∀ l ∈ ls, l.length = k) →
      ls.flatten.length = ls.length * k := by
  intro ls
  induction ls with
  | nil => intro _; simp
  | cons l t ih =>
    intro h
    rw [List.flatten_cons, List.length_append, h l (List.mem_cons_self l t),
      ih (fun x hx => h x (List.mem_cons_of_mem l hx)), List.length_cons]
    ring

/-- The well-formedness predicate carved out by the encoder: every field
in the range of its machine type, the data-offset invariant, a positive
width small enough that the source's `f32` scanline arithmetic is exact,
no compression, and pixel data matching the bit depth in kind, count and
element range. -/
def validBitmap (bm : Bitmap) : Bool :=
  decide (bm.header.signature < 2 ^ 16) &&
  decide (bm.header.file_size < 2 ^ 32) &&
  decide (bm.header.reserved < 2 ^ 32) &&
  decide (bm.header.data_offset = 54 + 4 * bm.color_table.colors.length) &&
  decide (bm.header.data_offset < 2 ^ 32) &&
  decide (bm.info_header.size < 2 ^ 32) &&
  decide (0 < bm.info_header.width) &&
  decide (bm.info_header.width ≤ 2 ^ 24) &&
  decide (-(2 ^ 31 : Int) ≤ bm.info_header.height) &&
  decide (bm.info_header.height < 2 ^ 31) &&
  decide (bm.info_header.planes < 2 ^ 16) &&
  decide (bm.info_header.compression = 0) &&
  decide (bm.info_header.image_size < 2 ^ 32) &&
  decide (-(2 ^ 31 : Int) ≤ bm.info_header.x_pixels_per_meter) &&
  decide (bm.info_header.x_pixels_per_meter < 2 ^ 31) &&
  decide (-(2 ^ 31 : Int) ≤ bm.info_header.y_pixels_per_meter) &&
  decide (bm.info_header.y_pixels_per_meter < 2 ^ 31) &&
  decide (bm.info_header.colors_used < 2 ^ 32) &&
  decide (bm.info_header.important_colors < 2 ^ 32) &&
  bm.color_table.colors.all (fun c =>
    decide (c.red < 256) && decide (c.green < 256) && decide (c.blue < 256) &&
      decide (c.alpha < 256)) &&
  (match bm.pixels.pixels with
   | .Indices indices =>
     decide (bm.info_header.bit_depth = 1 ∨ bm.info_header.bit_depth = 4 ∨
       bm.info_header.bit_depth = 8) &&
     decide (indices.length =
       bm.info_header.width.natAbs * bm.info_header.height.natAbs) &&
     indices.all (fun i => decide (i < 2 ^ bm.info_header.bit_depth))
   | .Colors colors =>
     decide (bm.info_header.bit_depth = 24 ∨ bm.info_header.bit_depth = 32) &&
     decide (colors.length =
       bm.info_header.width.natAbs * bm.info_header.height.natAbs) &&
     colors.all (fun c =>
       decide (c.red < 256) && decide (c.green < 256) &&
         decide (c.blue < 256) && decide (c.alpha < 256)) &&
     (decide (bm.info_header.bit_depth = 32) ||
       colors.all (fun c => decide (c.alpha = 255))))

/-- A buffer is well formed when it is the byte image of a valid bitmap. -/
def WellFormedBuffer (b : List Nat) : Prop :=
  ∃ bm : Bitmap, validBitmap bm = true ∧ bitmapBytes bm = b

end RustImages

namespace RustImages

/-- Indexed pixel data round-trips through the scanline split and the
per-scanline unpacking. -/
theorem indexedBranch_roundtrip (bd ppb W H : Nat) (hbd8 : bd * ppb = 8)
    (hbd0 : 0 < bd) (hW0 : 0 < W) (indices : List Nat)
    (hlen : indices.length = W * H) (hbound : ∀ i ∈ indices, i < 2 ^ bd) :
    splitScanlines (roundToNextMultipleOf4 ((W + ppb - 1) / ppb))
        (((listChunksExact W indices).map
          (fun r => padTo4 (packIndexedScanline bd ppb r))).flatten.length + 1)
        (((listChunksExact W indices).map
          (fun r => padTo4 (packIndexedScanline bd ppb r))).flatten) =
      some ((listChunksExact W indices).map
          (fun r => padTo4 (packIndexedScanline bd ppb r)) ++ [[]]) ∧
    (((listChunksExact W indices).map
        (fun r => padTo4 (packIndexedScanline bd ppb r)) ++ [[]]).map
      (decodeIndexedScanline bd ppb W ((W + ppb - 1) / ppb))).flatten =
      indices := by
  have hppb0 : 0 < ppb := by
    rcases Nat.eq_zero_or_pos ppb with h | h
    · rw [h, Nat.mul_zero] at hbd8; omega
    · exact h
  have hslwT0 : 0 < (W + ppb - 1) / ppb :=
    Nat.div_pos (by omega) hppb0
  have hslw0 : 0 < roundToNextMultipleOf4 ((W + ppb - 1) / ppb) := by
    have := le_roundToNextMultipleOf4 ((W + ppb - 1) / ppb)
    omega
  have huniform : ∀ c ∈ listChunks W indices, c.length = W :=
    listChunks_uniform W hW0 H indices hlen
  have hexact : listChunksExact W indices = listChunks W indices := by
    have hflat : (listChunks W indices).flatten = indices :=
      flatten_listChunks W hW0 indices
    calc listChunksExact W indices
        = listChunksExact W (listChunks W indices).flatten := by rw [hflat]
      _ = listChunks W indices :=
          listChunksExact_flatten W hW0 _ huniform
  have hrowlen : ∀ l ∈ (listChunksExact W indices).map
      (fun r => padTo4 (packIndexedScanline bd ppb r)),
      l.length = roundToNextMultipleOf4 ((W + ppb - 1) / ppb) := by
    intro l hl
    rcases List.mem_map.mp hl with ⟨r, hr, rfl⟩
    rw [hexact] at hr
    rw [padTo4_length, packIndexedScanline_length bd ppb hppb0,
      huniform r hr]
  refine ⟨splitScanlines_flatten _ hslw0 _ hrowlen, ?_⟩
  rw [List.map_append, List.flatten_append]
  have hnil : (([[]] : List (List Nat)).map
      (decodeIndexedScanline bd ppb W ((W + ppb - 1) / ppb))).flatten = [] := rfl
  rw [hnil, List.append_nil, List.map_map, hexact]
  have hdec : ∀ r ∈ listChunks W indices,
      (decodeIndexedScanline bd ppb W ((W + ppb - 1) / ppb) ∘
        fun r => padTo4 (packIndexedScanline bd ppb r)) r = id r := by
    intro r hr
    show decodeIndexedScanline bd ppb W ((W + ppb - 1) / ppb)
      (padTo4 (packIndexedScanline bd ppb r)) = r
    rw [padTo4]
    exact decodeIndexedScanline_unpack bd ppb W hbd8 hbd0 r (huniform r hr)
      hW0 (fun g hg => hbound g (listChunks_mem W hW0 indices r hr g hg)) _
      (by rw [packIndexedScanline_length bd ppb hppb0, huniform r hr])
  rw [List.map_congr_left hdec, List.map_id]
  exact flatten_listChunks W hW0 indices

/-- Direct-color pixel data round-trips through the scanline split and
the per-scanline chunk decoding. -/
theorem directBranch_roundtrip (bpp W H : Nat) (hbpp : bpp = 3 ∨ bpp = 4)
    (hW0 : 0 < W) (colors : List ARGB) (hlen : colors.length = W * H)
    (hch : ∀ c ∈ colors, c.red < 256 ∧ c.green < 256 ∧ c.blue < 256 ∧
      c.alpha < 256)
    (halpha : bpp = 3 → ∀ c ∈ colors, c.alpha = 255) :
    splitScanlines (roundToNextMultipleOf4 (W * bpp))
        (((listChunksExact W colors).map
          (fun (r : List ARGB) => padTo4 ((r.map (colorToBytes bpp)).flatten))).flatten.length
          + 1)
        (((listChunksExact W colors).map
          (fun (r : List ARGB) => padTo4 ((r.map (colorToBytes bpp)).flatten))).flatten) =
      some ((listChunksExact W colors).map
          (fun (r : List ARGB) => padTo4 ((r.map (colorToBytes bpp)).flatten)) ++ [[]]) ∧
    (((listChunksExact W colors).map
        (fun (r : List ARGB) => padTo4 ((r.map (colorToBytes bpp)).flatten)) ++ [[]]).map
      (decodeDirectScanline bpp W)).flatten = colors := by
  have hbpp0 : 0 < bpp := by rcases hbpp with h | h <;> omega
  have hbpp4 : bpp ≤ 4 := by rcases hbpp with h | h <;> omega
  have hslw0 : 0 < roundToNextMultipleOf4 (W * bpp) := by
    have := le_roundToNextMultipleOf4 (W * bpp)
    have : 0 < W * bpp := Nat.mul_pos hW0 hbpp0
    omega
  have huniform : ∀ c ∈ listChunks W colors, c.length = W :=
    listChunks_uniform W hW0 H colors hlen
  have hexact : listChunksExact W colors = listChunks W colors := by
    have hflat : (listChunks W colors).flatten = colors :=
      flatten_listChunks W hW0 colors
    calc listChunksExact W colors
        = listChunksExact W (listChunks W colors).flatten := by rw [hflat]
      _ = listChunks W colors := listChunksExact_flatten W hW0 _ huniform
  have hrowlen : ∀ l ∈ (listChunksExact W colors).map
      (fun (r : List ARGB) => padTo4 ((r.map (colorToBytes bpp)).flatten)),
      l.length = roundToNextMultipleOf4 (W * bpp) := by
    intro l hl
    rcases List.mem_map.mp hl with ⟨r, hr, rfl⟩
    rw [hexact] at hr
    rw [padTo4_length, flatten_length_uniform bpp _ (by
      intro x hx
      rcases List.mem_map.mp hx with ⟨c, _, rfl⟩
      exact colorToBytes_length bpp hbpp4 c), List.length_map,
      huniform r hr]
  refine ⟨splitScanlines_flatten _ hslw0 _ hrowlen, ?_⟩
  rw [List.map_append, List.flatten_append]
  have hnil : (([[]] : List (List Nat)).map
      (decodeDirectScanline bpp W)).flatten = [] := rfl
  rw [hnil, List.append_nil, List.map_map, hexact]
  have hdec : ∀ r ∈ listChunks W colors,
      (decodeDirectScanline bpp W ∘
        fun r => padTo4 ((r.map (colorToBytes bpp)).flatten)) r = id r := by
    intro r hr
    show decodeDirectScanline bpp W
      (padTo4 ((r.map (colorToBytes bpp)).flatten)) = r
    rw [padTo4]
    exact decodeDirectScanline_unpack bpp W hbpp r (huniform r hr)
      (fun c hc => hch c (listChunks_mem W hW0 colors r hr c hc))
      (fun h3 c hc => halpha h3 c (listChunks_mem W hW0 colors r hr c hc)) _
  rw [List.map_congr_left hdec, List.map_id]
  exact flatten_listChunks W hW0 colors

end RustImages

namespace RustImages

/-- Decoding the byte image of any valid bitmap recovers that bitmap. -/
theorem decode_of_encode (bm : Bitmap) (hv : validBitmap bm = true) :
    decodeBitmap (bitmapBytes bm) = .ok bm := by
  rw [validBitmap] at hv
  simp only [Bool.and_eq_true, decide_eq_true_eq, List.all_eq_true] at hv
  obtain ⟨hrest, hpx⟩ := hv
  obtain ⟨hrest, hcols⟩ := hrest
  obtain ⟨hrest, hic⟩ := hrest
  obtain ⟨hrest, hcu⟩ := hrest
  obtain ⟨hrest, hyhi⟩ := hrest
  obtain ⟨hrest, hylo⟩ := hrest
  obtain ⟨hrest, hxhi⟩ := hrest
  obtain ⟨hrest, hxlo⟩ := hrest
  obtain ⟨hrest, his⟩ := hrest
  obtain ⟨hrest, hcp⟩ := hrest
  obtain ⟨hrest, hpl⟩ := hrest
  obtain ⟨hrest, hhhi⟩ := hrest
  obtain ⟨hrest, hhlo⟩ := hrest
  obtain ⟨hrest, hw24⟩ := hrest
  obtain ⟨hrest, hw0⟩ := hrest
  obtain ⟨hrest, hsz⟩ := hrest
  obtain ⟨hrest, hdo32⟩ := hrest
  obtain ⟨hrest, hdo⟩ := hrest
  obtain ⟨hrest, hrsv⟩ := hrest
  obtain ⟨hsig, hfs⟩ := hrest
  have hcols' : ∀ c ∈ bm.color_table.colors, c.red < 256 ∧ c.green < 256 ∧
      c.blue < 256 ∧ c.alpha < 256 := by
    intro c hc
    obtain ⟨⟨⟨h1, h2⟩, h3⟩, h4⟩ := hcols c hc
    exact ⟨h1, h2, h3, h4⟩
  have hlenB : (bitmapBytes bm).length =
      54 + 4 * bm.color_table.colors.length + (pixelDataBytes bm).length := by
    rw [bitmapBytes_length, colorTableBytes_length]
  have hn54 : ¬ (bitmapBytes bm).length < 54 := by omega
  have hwlo : -(2 ^ 31 : Int) ≤ bm.info_header.width := by omega
  have hwhi : bm.info_header.width < 2 ^ 31 := by omega
  have hW0 : 0 < bm.info_header.width.natAbs := by omega
  have hndo54 : ¬ bm.header.data_offset < 54 := by omega
  have hnctlen : ¬ (0 < bm.header.data_offset - 54 ∧
      (bitmapBytes bm).length < bm.header.data_offset) := by omega
  have hct : (if 0 < bm.header.data_offset - 54 then
      parseColorTable (bytesAt (bitmapBytes bm) 54 (bm.header.data_offset - 54))
      else []) = bm.color_table.colors := by
    by_cases hc : 0 < bm.header.data_offset - 54
    · rw [if_pos hc]
      have h4 : bm.header.data_offset - 54 = 4 * bm.color_table.colors.length := by
        omega
      rw [h4, bytesAt_colorTable]
      exact parseColorTable_colorTableBytes _ hcols'
    · rw [if_neg hc]
      have h0 : bm.color_table.colors.length = 0 := by omega
      exact (List.length_eq_zero.mp h0).symm
  have hpixreg := bitmapBytes_dropData bm hdo
  have hwu : ((bm.info_header.width % (2 ^ 64 : Int)).toNat) =
      bm.info_header.width.natAbs := by omega
  rcases hpxeq : bm.pixels.pixels with colors | indices
  · -- direct colors
    rw [hpxeq] at hpx
    simp only [Bool.and_eq_true, Bool.or_eq_true, decide_eq_true_eq,
      List.all_eq_true] at hpx
    obtain ⟨⟨⟨hbd, hclen⟩, hcbound⟩, halpha0⟩ := hpx
    have hcbound' : ∀ c ∈ colors, c.red < 256 ∧ c.green < 256 ∧
        c.blue < 256 ∧ c.alpha < 256 := by
      intro c hc
      obtain ⟨⟨⟨h1, h2⟩, h3⟩, h4⟩ := hcbound c hc
      exact ⟨h1, h2, h3, h4⟩
    have hbd16 : bm.info_header.bit_depth < 2 ^ 16 := by
      rcases hbd with h | h <;> omega
    obtain ⟨hph, hpih⟩ := parse_bitmapBytes bm hsig hfs hrsv hdo32 hsz hwlo
      hwhi hhlo hhhi hpl hbd16 (by omega) his hxlo hxhi hylo hyhi hcu hic
    have hbpp34 : (bm.info_header.bit_depth + 7) / 8 = 3 ∨
        (bm.info_header.bit_depth + 7) / 8 = 4 := by
      rcases hbd with h | h <;> simp [h]
    have halpha' : (bm.info_header.bit_depth + 7) / 8 = 3 →
        ∀ c ∈ colors, c.alpha = 255 := by
      intro h3 c hc
      rcases halpha0 with h32 | hall
      · rw [h32] at h3; omega
      · exact hall c hc
    have hnidx : ¬ (bm.info_header.bit_depth = 1 ∨
        bm.info_header.bit_depth = 4 ∨ bm.info_header.bit_depth = 8) := by
      rcases hbd with h | h <;> omega
    have hn16 : ¬ bm.info_header.bit_depth = 16 := by
      rcases hbd with h | h <;> omega
    have hpdb : pixelDataBytes bm =
        ((listChunksExact bm.info_header.width.natAbs colors).map
          (fun (r : List ARGB) => padTo4 ((r.map
            (colorToBytes ((bm.info_header.bit_depth + 7) / 8))).flatten))).flatten := by
      unfold pixelDataBytes
      rw [hpxeq]
    obtain ⟨hs1, hs2⟩ := directBranch_roundtrip
      ((bm.info_header.bit_depth + 7) / 8) bm.info_header.width.natAbs
      bm.info_header.height.natAbs hbpp34 hW0 colors hclen hcbound' halpha'
    unfold decodeBitmap
    rw [if_neg hn54]
    simp only [hph, hpih]
    rw [if_neg hndo54, if_neg hnctlen, hct, if_neg hnidx, if_neg hn16,
      if_pos hbd, hpixreg, hpdb, hs1]
    simp only []
    rw [hs2, ← hpxeq]
  · -- indexed
    rw [hpxeq] at hpx
    simp only [Bool.and_eq_true, decide_eq_true_eq, List.all_eq_true] at hpx
    obtain ⟨⟨hbd, hilen⟩, hibound⟩ := hpx
    have hbd16 : bm.info_header.bit_depth < 2 ^ 16 := by
      rcases hbd with h | h | h <;> omega
    have hbd0 : 0 < bm.info_header.bit_depth := by
      rcases hbd with h | h | h <;> omega
    obtain ⟨hph, hpih⟩ := parse_bitmapBytes bm hsig hfs hrsv hdo32 hsz hwlo
      hwhi hhlo hhhi hpl hbd16 (by omega) his hxlo hxhi hylo hyhi hcu hic
    have hbd8 : bm.info_header.bit_depth *
        ((8 + bm.info_header.bit_depth - 1) / bm.info_header.bit_depth) = 8 := by
      rcases hbd with h | h | h <;> simp [h]
    have hpdb : pixelDataBytes bm =
        ((listChunksExact bm.info_header.width.natAbs indices).map
          (fun r => padTo4 (packIndexedScanline bm.info_header.bit_depth
            ((8 + bm.info_header.bit_depth - 1) / bm.info_header.bit_depth)
            r))).flatten := by
      unfold pixelDataBytes
      rw [hpxeq]
      refine congrArg List.flatten (List.map_congr_left ?_)
      intro s _
      rw [if_pos hbd]
    obtain ⟨hs1, hs2⟩ := indexedBranch_roundtrip bm.info_header.bit_depth
      ((8 + bm.info_header.bit_depth - 1) / bm.info_header.bit_depth)
      bm.info_header.width.natAbs bm.info_header.height.natAbs hbd8 hbd0 hW0
      indices hilen hibound
    unfold decodeBitmap
    rw [if_neg hn54]
    simp only [hph, hpih]
    rw [if_neg hndo54, if_neg hnctlen, hct, if_pos hbd, hpixreg, hpdb, hwu,
      hs1]
    simp only []
    rw [hs2, ← hpxeq]

end RustImages

namespace RustImages

theorem validBitmap_width_pos (bm : Bitmap) (hv : validBitmap bm = true) :
    0 < bm.info_header.width := by
  rw [validBitmap] at hv
  simp only [Bool.and_eq_true, decide_eq_true_eq, List.all_eq_true] at hv
  exact hv.1.1.1.1.1.1.1.1.1.1.1.1.1.1.2

/-- C1: for every well-formed, uncompressed bitmap byte buffer with bit
depth in {1, 4, 8, 24, 32} — well-formed meaning the byte image of a
bitmap whose fields are in range, whose data offset is
54 + 4·(color-table entries), with positive width at most 2^24 (so the
source's f32 scanline arithmetic is exact) and pixel data matching the
bit depth — decoding succeeds and re-encoding returns exactly the same
buffer, byte for byte. -/
theorem wellformed_buffer_roundtrip (b : List Nat) (hb : WellFormedBuffer b) :
    ∃ bm : Bitmap, decodeBitmap b = .ok bm ∧ encodeBitmap bm = .ok b := by
  obtain ⟨bm, hv, rfl⟩ := hb
  have hw0 : 0 < bm.info_header.width := validBitmap_width_pos bm hv
  refine ⟨bm, decode_of_encode bm hv, ?_⟩
  unfold encodeBitmap
  rw [if_neg (by omega : ¬ bm.info_header.width.natAbs = 0)]

/-- A 1×1 24-bit bitmap used to instantiate the round-trip theorem. -/
def exampleBitmap1x1 : Bitmap :=
  { header := { signature := 0x4D42, file_size := 58, reserved := 0,
                data_offset := 54 }
    info_header := { size := 40, width := 1, height := 1, planes := 1,
                     bit_depth := 24, compression := 0, image_size := 0,
                     x_pixels_per_meter := 2835, y_pixels_per_meter := 2835,
                     colors_used := 0, important_colors := 0 }
    color_table := ⟨[]⟩
    pixels := ⟨.Colors [⟨1, 2, 3, 255⟩]⟩ }

theorem wellformed_buffer_roundtrip_witness :
    WellFormedBuffer (bitmapBytes exampleBitmap1x1) ∧
    ∃ bm : Bitmap, decodeBitmap (bitmapBytes exampleBitmap1x1) = .ok bm ∧
      encodeBitmap bm = .ok (bitmapBytes exampleBitmap1x1) :=
  have hwf : WellFormedBuffer (bitmapBytes exampleBitmap1x1) :=
    ⟨exampleBitmap1x1, by decide, rfl⟩
  ⟨hwf, wellformed_buffer_roundtrip (bitmapBytes exampleBitmap1x1) hwf⟩

end RustImages

namespace RustImages

/-- The 102-byte 24-bit test fixture (bitmap/tests.rs:354-400): 54 header
bytes, no color table, 4 scanlines of 4 BGR triples, bottom row stored
first. -/
def input24_1 : List Nat :=
  [0x42, 0x4D, 0x66, 0, 0, 0, 0, 0, 0, 0, 0x36, 0, 0, 0,
   0x28, 0, 0, 0, 4, 0, 0, 0, 4, 0, 0, 0, 1, 0, 0x18, 0,
   0, 0, 0, 0, 0, 0, 0, 0, 0xC4, 0x0E, 0, 0, 0xC4, 0x0E, 0, 0,
   0, 0, 0, 0, 0, 0, 0, 0,
   0x00, 0x00, 0x00, 0x00, 0x00, 0xFF, 0x00, 0xFF, 0x00, 0x00, 0xFF, 0xFF,
   0xFF, 0x00, 0x00, 0xFF, 0x00, 0xFF, 0xFF, 0xFF, 0x00, 0xFF, 0xFF, 0xFF,
   0x00, 0x00, 0x00, 0x00, 0x00, 0xCC, 0x00, 0xCC, 0x00, 0x00, 0xCC, 0xCC,
   0xCC, 0x00, 0x00, 0xCC, 0x00, 0xCC, 0xCC, 0xCC, 0x00, 0xCC, 0xCC, 0xCC]

/-- The Bitmap value of the fixture (bitmap/tests.rs:403-437): pixels in
stored order, bottom row first, with alpha forced to 0xFF. -/
def bitmap24_1 : Bitmap :=
  { header := { signature := 0x4D42, file_size := 0x66, reserved := 0,
                data_offset := 0x36 }
    info_header := { size := 0x28, width := 4, height := 4, planes := 1,
                     bit_depth := 0x18, compression := 0, image_size := 0,
                     x_pixels_per_meter := 0x0EC4, y_pixels_per_meter := 0x0EC4,
                     colors_used := 0, important_colors := 0 }
    color_table := ⟨[]⟩
    pixels := ⟨.Colors
      [⟨0, 0, 0, 0xFF⟩, ⟨0xFF, 0, 0, 0xFF⟩, ⟨0, 0xFF, 0, 0xFF⟩,
       ⟨0xFF, 0xFF, 0, 0xFF⟩,
       ⟨0, 0, 0xFF, 0xFF⟩, ⟨0xFF, 0, 0xFF, 0xFF⟩, ⟨0, 0xFF, 0xFF, 0xFF⟩,
       ⟨0xFF, 0xFF, 0xFF, 0xFF⟩,
       ⟨0, 0, 0, 0xFF⟩, ⟨0xCC, 0, 0, 0xFF⟩, ⟨0, 0xCC, 0, 0xFF⟩,
       ⟨0xCC, 0xCC, 0, 0xFF⟩,
       ⟨0, 0, 0xCC, 0xFF⟩, ⟨0xCC, 0, 0xCC, 0xFF⟩, ⟨0, 0xCC, 0xCC, 0xFF⟩,
       ⟨0xCC, 0xCC, 0xCC, 0xFF⟩]⟩ }

/-- The Image value of the fixture (bitmap/tests.rs:439-449): rows top to
bottom, so the bitmap's last stored scanline appears as image row 0. -/
def image24_1 : Image :=
  { width := 4, height := 4
    pixels :=
      [⟨0, 0, 0xCC, 0xFF⟩, ⟨0xCC, 0, 0xCC, 0xFF⟩, ⟨0, 0xCC, 0xCC, 0xFF⟩,
       ⟨0xCC, 0xCC, 0xCC, 0xFF⟩,
       ⟨0, 0, 0, 0xFF⟩, ⟨0xCC, 0, 0, 0xFF⟩, ⟨0, 0xCC, 0, 0xFF⟩,
       ⟨0xCC, 0xCC, 0, 0xFF⟩,
       ⟨0, 0, 0xFF, 0xFF⟩, ⟨0xFF, 0, 0xFF, 0xFF⟩, ⟨0, 0xFF, 0xFF, 0xFF⟩,
       ⟨0xFF, 0xFF, 0xFF, 0xFF⟩,
       ⟨0, 0, 0, 0xFF⟩, ⟨0xFF, 0, 0, 0xFF⟩, ⟨0, 0xFF, 0, 0xFF⟩,
       ⟨0xFF, 0xFF, 0, 0xFF⟩] }

/-- C2: the 102-byte fixture decodes to the expected Bitmap; converting
that Bitmap to an Image puts the buffer's last stored scanline at row 0
with blue/green/red bytes read into the red/green/blue channels and
alpha forced to 0xFF; converting the Image back with options
{bit_depth 24, compression 0, resolutions 3780} and serializing
reproduces the original 102 bytes exactly. -/
theorem fixture_24bit_decode_convert_reencode :
    decodeBitmap input24_1 = .ok bitmap24_1 ∧
    bitmapToImage bitmap24_1 = .ok image24_1 ∧
    image24_1.pixels.take 4 =
      [⟨0, 0, 0xCC, 0xFF⟩, ⟨0xCC, 0, 0xCC, 0xFF⟩, ⟨0, 0xCC, 0xCC, 0xFF⟩,
       ⟨0xCC, 0xCC, 0xCC, 0xFF⟩] ∧
    imageToBitmap image24_1 ⟨24, 0, 3780, 3780⟩ = .ok bitmap24_1 ∧
    encodeBitmap bitmap24_1 = .ok input24_1 :=
  ⟨by decide, by decide, by decide, by decide, by decide⟩

end RustImages

namespace RustImages

/-- C6: the indexed Image→Bitmap path does build the color table in
first-occurrence order with one entry per distinct color, but the
round trip is NOT the identity: the encoder stores indexed rows
top-down (the `.rev()` present in the direct path is missing), while
the decoder reads rows bottom-up, so the decoded image is vertically
flipped.  Witnessed by a 1×2 image with two distinct colors. -/
theorem indexed_roundtrip_flips_rows :
    ∃ bm : Bitmap,
      imageToBitmap ⟨1, 2, [⟨10, 20, 30, 255⟩, ⟨40, 50, 60, 255⟩]⟩
        ⟨8, 0, 3780, 3780⟩ = .ok bm ∧
      bm.color_table.colors = [⟨10, 20, 30, 255⟩, ⟨40, 50, 60, 255⟩] ∧
      bm.pixels.pixels = .Indices [0, 1] ∧
      bitmapToImage bm = .ok ⟨1, 2, [⟨40, 50, 60, 255⟩, ⟨10, 20, 30, 255⟩]⟩ ∧
      bitmapToImage bm ≠ .ok ⟨1, 2, [⟨10, 20, 30, 255⟩, ⟨40, 50, 60, 255⟩]⟩ :=
  ⟨_, rfl, by decide, by decide, by decide, by decide⟩

end RustImages

namespace RustImages

/-- C9 counterexample: the bitmap produced from a 1×1 24-bit image has
info-header image_size 0, not the padded pixel-data byte count 4; the
source writes the literal `0_u32` into that field. -/
theorem encoded_image_size_field_is_zero :
    ∃ bm : Bitmap,
      imageToBitmap ⟨1, 1, [⟨0, 0, 0, 255⟩]⟩ ⟨24, 0, 3780, 3780⟩ = .ok bm ∧
      bm.info_header.image_size = 0 ∧
      roundToNextMultipleOf4 (1 * ((24 + 7) / 8)) * 1 = 4 ∧
      bm.info_header.image_size ≠ roundToNextMultipleOf4 (1 * ((24 + 7) / 8)) * 1 :=
  ⟨_, rfl, by decide, by decide, by decide⟩

/-- C9 (amended): every bitmap produced by the Image→Bitmap conversion
satisfies `data_offset = (14 + 40 + 4·entries) mod 2^32` and
`file_size = (data_offset + round4(width·bytes_per_pixel)·height mod 2^32)
mod 2^32`, but the info-header image_size field is the literal 0 of the
source, not the padded pixel-data byte count. -/
theorem image_to_bitmap_size_invariants (img : Image) (opts : BitmapConvertData)
    (bm : Bitmap) (h : imageToBitmap img opts = .ok bm) :
    bm.header.data_offset =
      (14 + 40 + 4 * bm.color_table.colors.length) % 2 ^ 32 ∧
    bm.header.file_size = (bm.header.data_offset +
      roundToNextMultipleOf4 (img.width * ((opts.bit_depth + 7) / 8)) *
        img.height % 2 ^ 32) % 2 ^ 32 ∧
    bm.info_header.image_size = 0 := by
  unfold imageToBitmap at h
  by_cases hc : img.pixels.length < img.width * img.height
  · rw [if_pos hc] at h
    exact RRes.noConfusion h
  · rw [if_neg hc] at h
    simp only [RRes.ok.injEq] at h
    subst h
    exact ⟨rfl, rfl, rfl⟩

def c9Image : Image := ⟨1, 1, [⟨0, 0, 0, 255⟩]⟩

def c9Options : BitmapConvertData := ⟨24, 0, 3780, 3780⟩

def c9Bitmap : Bitmap :=
  { header := { signature := 0x4D42, file_size := 58, reserved := 0,
                data_offset := 54 }
    info_header := { size := 40, width := 1, height := 1, planes := 1,
                     bit_depth := 24, compression := 0, image_size := 0,
                     x_pixels_per_meter := 3780, y_pixels_per_meter := 3780,
                     colors_used := 0, important_colors := 0 }
    color_table := ⟨[]⟩
    pixels := ⟨.Colors [⟨0, 0, 0, 255⟩]⟩ }

theorem image_to_bitmap_size_invariants_witness :
    c9Bitmap.header.data_offset =
      (14 + 40 + 4 * c9Bitmap.color_table.colors.length) % 2 ^ 32 ∧
    c9Bitmap.header.file_size = (c9Bitmap.header.data_offset +
      roundToNextMultipleOf4 (c9Image.width * ((c9Options.bit_depth + 7) / 8)) *
        c9Image.height % 2 ^ 32) % 2 ^ 32 ∧
    c9Bitmap.info_header.image_size = 0 :=
  image_to_bitmap_size_invariants c9Image c9Options c9Bitmap (by decide)

end RustImages

namespace RustImages

/-- The scanline loop always terminates with a value when the scanline
width is positive, whatever the region length. -/
theorem splitScanlines_total (slw : Nat) (hslw : 0 < slw) :
    ∀ (fuel : Nat) (rem : List Nat), rem.length < fuel →
      ∃ rows, splitScanlines slw fuel rem = some rows := by
  intro fuel
  induction fuel using Nat.strong_induction_on with
  | _ fuel ih =>
    intro rem h
    cases fuel with
    | zero => omega
    | succ f =>
      show ∃ rows, (if rem.length < slw then some [rem]
        else (splitScanlines slw f (rem.drop slw)).map (rem.take slw :: ·)) =
          some rows
      by_cases hc : rem.length < slw
      · exact ⟨[rem], by rw [if_pos hc]⟩
      · have hdlen : (rem.drop slw).length = rem.length - slw := by
          simp [List.length_drop]
        obtain ⟨rows, hrows⟩ := ih f (by omega) (rem.drop slw) (by omega)
      
        exact ⟨rem.take slw :: rows, by rw [if_neg hc, hrows]; rfl⟩

/-- C8: when the headers parse (54 ≤ data_offset ≤ buffer length), the
bit depth is one of 1, 4, 8, 24 or 32 and the stored width is a nonzero
i32 of magnitude at most 2^24, decoding succeeds whatever the length of
the pixel-data region — in particular when it ends partway through a
scanline, the remainder being decoded as a short final scanline and no
error being returned. -/
theorem truncated_pixel_region_decodes (b : List Nat)
    (hlen : 54 ≤ b.length)
    (hdo : 54 ≤ (parseHeader b).data_offset)
    (hdo2 : (parseHeader b).data_offset ≤ b.length)
    (hbd : (parseInfoHeader b).bit_depth = 1 ∨ (parseInfoHeader b).bit_depth = 4
      ∨ (parseInfoHeader b).bit_depth = 8 ∨ (parseInfoHeader b).bit_depth = 24
      ∨ (parseInfoHeader b).bit_depth = 32)
    (hw : (parseInfoHeader b).width ≠ 0)
    (hw24 : (parseInfoHeader b).width.natAbs ≤ 2 ^ 24) :
    ∃ bm : Bitmap, decodeBitmap b = .ok bm := by
  have hW0 : 0 < (parseInfoHeader b).width.natAbs := by omega
  simp only [decodeBitmap]
  rw [if_neg (show ¬ b.length < 54 by omega),
    if_neg (show ¬ (parseHeader b).data_offset < 54 by omega),
    if_neg (show ¬ (0 < (parseHeader b).data_offset - 54 ∧
      b.length < (parseHeader b).data_offset) by omega)]
  rcases hbd with h | h | h | h | h
  all_goals rw [h]
  · rw [if_pos (show (1 : Nat) = 1 ∨ (1 : Nat) = 4 ∨ (1 : Nat) = 8 by
      norm_num)]
    obtain ⟨rows, hrows⟩ := splitScanlines_total
      (roundToNextMultipleOf4 (((parseInfoHeader b).width.natAbs +
        (8 + 1 - 1) / 1 - 1) / ((8 + 1 - 1) / 1)))
      (by
        have h1 : 0 < ((parseInfoHeader b).width.natAbs + (8 + 1 - 1) / 1 - 1)
            / ((8 + 1 - 1) / 1) := Nat.div_pos (by omega) (by norm_num)
        have := le_roundToNextMultipleOf4
          (((parseInfoHeader b).width.natAbs + (8 + 1 - 1) / 1 - 1)
            / ((8 + 1 - 1) / 1))
        omega)
      ((b.drop (parseHeader b).data_offset).length + 1)
      (b.drop (parseHeader b).data_offset) (by omega)
    rw [hrows]
    exact ⟨_, rfl⟩
  · rw [if_pos (show (4 : Nat) = 1 ∨ (4 : Nat) = 4 ∨ (4 : Nat) = 8 by
      norm_num)]
    obtain ⟨rows, hrows⟩ := splitScanlines_total
      (roundToNextMultipleOf4 (((parseInfoHeader b).width.natAbs +
        (8 + 4 - 1) / 4 - 1) / ((8 + 4 - 1) / 4)))
      (by
        have h1 : 0 < ((parseInfoHeader b).width.natAbs + (8 + 4 - 1) / 4 - 1)
            / ((8 + 4 - 1) / 4) := Nat.div_pos (by omega) (by norm_num)
        have := le_roundToNextMultipleOf4
          (((parseInfoHeader b).width.natAbs + (8 + 4 - 1) / 4 - 1)
            / ((8 + 4 - 1) / 4))
        omega)
      ((b.drop (parseHeader b).data_offset).length + 1)
      (b.drop (parseHeader b).data_offset) (by omega)
    rw [hrows]
    exact ⟨_, rfl⟩
  · rw [if_pos (show (8 : Nat) = 1 ∨ (8 : Nat) = 4 ∨ (8 : Nat) = 8 by
      norm_num)]
    obtain ⟨rows, hrows⟩ := splitScanlines_total
      (roundToNextMultipleOf4 (((parseInfoHeader b).width.natAbs +
        (8 + 8 - 1) / 8 - 1) / ((8 + 8 - 1) / 8)))
      (by
        have h1 : 0 < ((parseInfoHeader b).width.natAbs + (8 + 8 - 1) / 8 - 1)
            / ((8 + 8 - 1) / 8) := Nat.div_pos (by omega) (by norm_num)
        have := le_roundToNextMultipleOf4
          (((parseInfoHeader b).width.natAbs + (8 + 8 - 1) / 8 - 1)
            / ((8 + 8 - 1) / 8))
        omega)
      ((b.drop (parseHeader b).data_offset).length + 1)
      (b.drop (parseHeader b).data_offset) (by omega)
    rw [hrows]
    exact ⟨_, rfl⟩
  · rw [if_neg (show ¬ ((24 : Nat) = 1 ∨ (24 : Nat) = 4 ∨ (24 : Nat) = 8) by
      norm_num), if_neg (show ¬ (24 : Nat) = 16 by norm_num),
      if_pos (show (24 : Nat) = 24 ∨ (24 : Nat) = 32 by norm_num)]
    obtain ⟨rows, hrows⟩ := splitScanlines_total
      (roundToNextMultipleOf4 ((parseInfoHeader b).width.natAbs * ((24 + 7) / 8)))
      (by
        have h1 : 0 < (parseInfoHeader b).width.natAbs * ((24 + 7) / 8) := by
          have : ((24 + 7) / 8 : Nat) = 3 := by norm_num
          rw [this]; omega
        have := le_roundToNextMultipleOf4
          ((parseInfoHeader b).width.natAbs * ((24 + 7) / 8))
        omega)
      ((b.drop (parseHeader b).data_offset).length + 1)
      (b.drop (parseHeader b).data_offset) (by omega)
    rw [hrows]
    exact ⟨_, rfl⟩
  · rw [if_neg (show ¬ ((32 : Nat) = 1 ∨ (32 : Nat) = 4 ∨ (32 : Nat) = 8) by
      norm_num), if_neg (show ¬ (32 : Nat) = 16 by norm_num),
      if_pos (show (32 : Nat) = 24 ∨ (32 : Nat) = 32 by norm_num)]
    obtain ⟨rows, hrows⟩ := splitScanlines_total
      (roundToNextMultipleOf4 ((parseInfoHeader b).width.natAbs * ((32 + 7) / 8)))
      (by
        have h1 : 0 < (parseInfoHeader b).width.natAbs * ((32 + 7) / 8) := by
          have : ((32 + 7) / 8 : Nat) = 4 := by norm_num
          rw [this]; omega
        have := le_roundToNextMultipleOf4
          ((parseInfoHeader b).width.natAbs * ((32 + 7) / 8))
        omega)
      ((b.drop (parseHeader b).data_offset).length + 1)
      (b.drop (parseHeader b).data_offset) (by omega)
    rw [hrows]
    exact ⟨_, rfl⟩

/-- A 24-bit header for a 4×4 image followed by only 5 pixel bytes:
the region stops partway through the first 12-byte scanline. -/
def truncatedBuffer : List Nat :=
  [0x42, 0x4D, 0x66, 0, 0, 0, 0, 0, 0, 0, 0x36, 0, 0, 0,
   0x28, 0, 0, 0, 4, 0, 0, 0, 4, 0, 0, 0, 1, 0, 0x18, 0,
   0, 0, 0, 0, 0, 0, 0, 0, 0xC4, 0x0E, 0, 0, 0xC4, 0x0E, 0, 0,
   0, 0, 0, 0, 0, 0, 0, 0,
   0x11, 0x22, 0x33, 0x44, 0x55]

theorem truncated_pixel_region_decodes_witness :
    ∃ bm : Bitmap, decodeBitmap truncatedBuffer = .ok bm :=
  truncated_pixel_region_decodes truncatedBuffer (by decide) (by decide)
    (by decide) (by decide) (by decide) (by decide)

end RustImages

namespace RustImages

/-- Replace the signature field of a successfully decoded bitmap; every
other outcome is passed through unchanged. -/
def withSignature (sig : Nat) : RRes Bitmap → RRes Bitmap
  | .ok bm => .ok { bm with header := { bm.header with signature := sig } }
  | r => r

/-- C10: decode never validates the file-header signature.  Two buffers
of the same length agreeing from byte 2 on decode to the same outcome —
same error, same fault, same divergence, or the same bitmap up to the
stored signature field.  In particular a buffer whose signature is not
0x4D42 is still accepted. -/
theorem decode_ignores_signature (b1 b2 : List Nat)
    (hlen : b1.length = b2.length) (htail : b1.drop 2 = b2.drop 2) :
    decodeBitmap b2 = withSignature (readU16 b2 0) (decodeBitmap b1) := by
  have hdropk : ∀ k, 2 ≤ k → b2.drop k = b1.drop k := by
    intro k hk
    have h2 : b2.drop k = (b2.drop 2).drop (k - 2) := by
      rw [List.drop_drop]
      congr 1
      omega
    have h1 : b1.drop k = (b1.drop 2).drop (k - 2) := by
      rw [List.drop_drop]
      congr 1
      omega
    rw [h1, h2, htail]
  have hAt : ∀ off n, 2 ≤ off → bytesAt b2 off n = bytesAt b1 off n := by
    intro off n h
    rw [bytesAt, bytesAt, hdropk off h]
  have hU32 : ∀ off, 2 ≤ off → readU32 b2 off = readU32 b1 off := by
    intro off h
    rw [readU32, readU32, hAt off 4 h]
  have hI32 : ∀ off, 2 ≤ off → readI32 b2 off = readI32 b1 off := by
    intro off h
    rw [readI32, readI32, hAt off 4 h]
  have hU16 : ∀ off, 2 ≤ off → readU16 b2 off = readU16 b1 off := by
    intro off h
    rw [readU16, readU16, hAt off 2 h]
  have hih : parseInfoHeader b2 = parseInfoHeader b1 := by
    rw [parseInfoHeader, parseInfoHeader, hU32 14 (by omega),
      hI32 18 (by omega), hI32 22 (by omega), hU16 26 (by omega),
      hU16 28 (by omega), hU32 30 (by omega), hU32 34 (by omega),
      hI32 38 (by omega), hI32 42 (by omega), hU32 46 (by omega),
      hU32 50 (by omega)]
  have hph : parseHeader b2 =
      { parseHeader b1 with signature := readU16 b2 0 } := by
    rw [parseHeader, parseHeader, hU32 2 (by omega), hU32 6 (by omega),
      hU32 10 (by omega)]
  by_cases h54 : b1.length < 54
  · have h54' : b2.length < 54 := by omega
    unfold decodeBitmap
    rw [if_pos h54', if_pos h54]
    rfl
  · have h54' : ¬ b2.length < 54 := by omega
    unfold decodeBitmap
    rw [if_neg h54', if_neg h54]
    simp only [hph, hih, ← hlen]
    by_cases hdo : (parseHeader b1).data_offset < 54
    · rw [if_pos hdo, if_pos hdo]
      rfl
    · rw [if_neg hdo, if_neg hdo]
      rw [hAt 54 ((parseHeader b1).data_offset - 54) (by omega),
        hdropk (parseHeader b1).data_offset (by omega)]
      by_cases hct : 0 < (parseHeader b1).data_offset - 54 ∧
          b1.length < (parseHeader b1).data_offset
      · rw [if_pos hct, if_pos hct]
        rfl
      · rw [if_neg hct, if_neg hct]
        by_cases hbd1 : (parseInfoHeader b1).bit_depth = 1 ∨
            (parseInfoHeader b1).bit_depth = 4 ∨
            (parseInfoHeader b1).bit_depth = 8
        · rw [if_pos hbd1, if_pos hbd1]
          cases hsp : splitScanlines
            (roundToNextMultipleOf4 (((parseInfoHeader b1).width.natAbs +
              (8 + (parseInfoHeader b1).bit_depth - 1) /
                (parseInfoHeader b1).bit_depth - 1) /
              ((8 + (parseInfoHeader b1).bit_depth - 1) /
                (parseInfoHeader b1).bit_depth)))
            ((b1.drop (parseHeader b1).data_offset).length + 1)
            (b1.drop (parseHeader b1).data_offset) with
          | none => rfl
          | some rows => rfl
        · rw [if_neg hbd1, if_neg hbd1]
          by_cases hbd16 : (parseInfoHeader b1).bit_depth = 16
          · rw [if_pos hbd16, if_pos hbd16]
            rfl
          · rw [if_neg hbd16, if_neg hbd16]
            by_cases hbd24 : (parseInfoHeader b1).bit_depth = 24 ∨
                (parseInfoHeader b1).bit_depth = 32
            · rw [if_pos hbd24, if_pos hbd24]
              cases hsp : splitScanlines
                (roundToNextMultipleOf4 ((parseInfoHeader b1).width.natAbs *
                  (((parseInfoHeader b1).bit_depth + 7) / 8)))
                ((b1.drop (parseHeader b1).data_offset).length + 1)
                (b1.drop (parseHeader b1).data_offset) with
              | none => rfl
              | some rows => rfl
            · rw [if_neg hbd24, if_neg hbd24]
              rfl

end RustImages

namespace RustImages

/-- A 58-byte 1×1 24-bit buffer with the standard BM signature. -/
def c10BufferBM : List Nat :=
  [0x42, 0x4D, 58, 0, 0, 0, 0, 0, 0, 0, 54, 0, 0, 0,
   40, 0, 0, 0, 1, 0, 0, 0, 1, 0, 0, 0, 1, 0, 24, 0,
   0, 0, 0, 0, 0, 0, 0, 0, 0x13, 0x0B, 0, 0, 0x13, 0x0B, 0, 0,
   0, 0, 0, 0, 0, 0, 0, 0,
   1, 2, 3, 0]

/-- The same buffer with the signature bytes replaced by "XY". -/
def c10BufferXY : List Nat := 0x58 :: 0x59 :: c10BufferBM.drop 2

theorem decode_ignores_signature_witness :
    decodeBitmap c10BufferBM =
      withSignature (readU16 c10BufferBM 0) (decodeBitmap c10BufferXY) ∧
    (decodeBitmap c10BufferXY).isOk = true ∧
    readU16 c10BufferXY 0 ≠ 0x4D42 :=
  ⟨decode_ignores_signature c10BufferXY c10BufferBM (by decide) (by decide),
    by decide, by decide⟩

end RustImages
